import Mathlib

/-!
# CContainer (src/Container.h): a bitmask-indexed object pool over a caller-supplied buffer

Modelling conventions.

* Target data model: `int` and `unsigned` are 32 bits wide, `unsigned long`, `size_t` and
  pointers are 64 bits wide.
* An address is an integer (`Int`); memory maps every address to the byte stored there
  (`Int → Nat`).  Pointer arithmetic is carried out in the integers: the machine forms
  `start + firstEmptyIndex * sizeof(T)` modulo `2^64`, and the integer result is
  congruent to it, so that an index of `-1` addresses the `sizeof(T)` bytes just below
  `start`.
* Integer arithmetic that can wrap is written with explicit reductions (`u32`, `u64`, `i32`).
* The template parameter `T` is an `ElemType`: its size, the bytes its default constructor
  leaves in the object, and what its destructor leaves there.  Constructor and destructor
  touch only the bytes of the object they are applied to.
-/

/-- Element type `T` of the template: `sizeof(T)` (positive), the byte the default
constructor `T()` stores at each offset of the object, and the bytes the destructor
leaves behind as a function of the bytes of the object. -/
structure ElemType where
  sizeof : Nat
  sizeof_pos : 0 < sizeof
  ctor : Nat → Nat
  dtor : (Nat → Nat) → Nat → Nat

/-- A 16-byte element type (the design comment: "sizeof CTestClass is 16 bytes") whose
constructor zero-fills the object and whose destructor leaves the bytes as they are. -/
def CTestClass : ElemType where
  sizeof := 16
  sizeof_pos := by decide
  ctor := fun _ => 0
  dtor := fun bytes => bytes

/-- A 1-byte element type whose constructor stores 0 and whose destructor leaves the
byte as it is. -/
def CByteClass : ElemType where
  sizeof := 1
  sizeof_pos := by decide
  ctor := fun _ => 0
  dtor := fun bytes => bytes

/-- Reduction of a natural number to `unsigned` (32 bits). -/
def u32 (x : Nat) : Nat := x % 2 ^ 32

/-- Conversion of an integer to `unsigned long` / `size_t` (64 bits). -/
def u64 (x : Int) : Nat := (x % 2 ^ 64).toNat

/-- Conversion of an `unsigned` value to `int`: values from `2^31` on wrap around to the
negative range (32 bits). -/
def i32 (x : Nat) : Int :=
  if x % 2 ^ 32 < 2 ^ 31 then ((x % 2 ^ 32 : Nat) : Int) else ((x % 2 ^ 32 : Nat) : Int) - 2 ^ 32

/-- The decrement `x--` of an `unsigned`: 0 wraps around to `2^32 - 1`. -/
def dec32 (x : Nat) : Nat := if x = 0 then 2 ^ 32 - 1 else x - 1

/-- Truncation to a `char` (8 bits). -/
def u8 (x : Nat) : Nat := x % 256

/-- Bitwise complement of a 32-bit `int`, as its unsigned representation. -/
def not32 (x : Nat) : Nat := 2 ^ 32 - 1 - x % 2 ^ 32

/-- The test `*byte & (1 << i)` converted to `bool`. -/
def bitTest (byte i : Nat) : Bool := (byte &&& (1 <<< i)) != 0

/-- Memory after storing byte `v` at address `a`. -/
def store (mem : Int → Nat) (a : Int) (v : Nat) : Int → Nat :=
  fun x => if x = a then v else mem x

/-- Memory after `new (p) T()`: the constructor fills the `sizeof(T)` bytes at `p`. -/
def construct (T : ElemType) (mem : Int → Nat) (p : Int) : Int → Nat :=
  fun x => if p ≤ x ∧ x < p + T.sizeof then T.ctor (x - p).toNat else mem x

/-- Memory after `object->~T()`: the destructor rewrites the `sizeof(T)` bytes at `p`. -/
def destruct (T : ElemType) (mem : Int → Nat) (p : Int) : Int → Nat :=
  fun x => if p ≤ x ∧ x < p + T.sizeof
    then T.dtor (fun k => mem (p + (k : Int))) (x - p).toNat else mem x

/-- The data members of `CContainer<T>`, together with the memory its pointers refer to. -/
structure CContainer where
  start : Int
  bufferSize : Nat
  maxCount : Nat
  count : Nat
  bitmaskLength : Nat
  bitmaskBytes : Nat
  toc : Int
  mem : Int → Nat

namespace CContainer

/-- The constructor `CContainer(char * pBuffer, unsigned nBufferSize)` (lines 59-71).
The subtraction for `maxCount` is formed in `size_t` and stored in an `unsigned`. -/
def ctor (T : ElemType) (mem : Int → Nat) (pBuffer : Int) (nBufferSize : Nat) : CContainer :=
  let bufferSize := u32 nBufferSize
  let bitmaskLength := u32 (bufferSize / T.sizeof)
  let bitmaskBytes := bitmaskLength / 8
  { toc := pBuffer
    bufferSize := bufferSize
    bitmaskLength := bitmaskLength
    bitmaskBytes := bitmaskBytes
    start := pBuffer + (bitmaskBytes : Int)
    maxCount := u32 (u64 ((bitmaskLength : Int) - ((bitmaskBytes / T.sizeof : Nat) : Int)))
    count := 0
    mem := mem }

/-- The accessor `Count()`. -/
def Count (s : CContainer) : Nat := s.count

/-- The accessor `Capacity()`. -/
def Capacity (s : CContainer) : Nat := s.maxCount

/-- The accessor `IsEmpty()`. -/
def IsEmpty (s : CContainer) : Bool := s.count == 0

/-- The accessor `IsFull()`. -/
def IsFull (s : CContainer) : Bool := s.count == s.maxCount

/-- Bit `j` of the occupancy bitmask in scan order: bit `7 - j mod 8` of byte `j div 8`. -/
def bit (s : CContainer) (j : Nat) : Bool :=
  (s.mem (s.toc + ((j / 8 : Nat) : Int))).testBit (7 - j % 8)

/-- Address of slot `j`: `start + j * sizeof(T)`. -/
def slot (T : ElemType) (s : CContainer) (j : Nat) : Int :=
  s.start + (j : Int) * (T.sizeof : Int)

/-- Inner loop of `Add` (lines 103-115): `for (int i = n - 1; i >= 0; i--)` over one byte;
on the first clear bit it assigns `firstEmptyIndex`, `firstEmptyIndexByte`,
`firstEmptyIndexBitOffset` (in this order in the triple) and breaks. -/
def Add.inner (byte currentByte : Nat) : Nat → Int × Nat × Nat → Int × Nat × Nat
  | 0, r => r
  | i + 1, r =>
    if !bitTest byte i then
      (i32 (u32 (u32 (currentByte * 8) + (7 - i))), currentByte, i)
    else Add.inner byte currentByte i r

/-- Outer loop of `Add` (lines 101-119) with `k` bytes left to visit from `currentByte`
(`currentByte` never exceeds `bitmaskBytes`, so `currentByte++` does not wrap). -/
def Add.scan (s : CContainer) : Nat → Nat → Int × Nat × Nat → Int × Nat × Nat
  | 0, _, r => r
  | k + 1, currentByte, r =>
    let r1 := Add.inner (s.mem (s.toc + (currentByte : Int))) currentByte 8 r
    if r1.1 ≠ -1 then r1 else Add.scan s k (currentByte + 1) r1

/-- The three locals `(firstEmptyIndex, firstEmptyIndexByte, firstEmptyIndexBitOffset)`
of `Add` after its search loop (lines 95-119). -/
def Add.search (s : CContainer) : Int × Nat × Nat :=
  Add.scan s s.bitmaskBytes 0 (-1, 0, 0)

/-- The method `Add()` (lines 77-131): the new state and the returned pointer. -/
def Add (T : ElemType) (s : CContainer) : CContainer × Int :=
  let r := Add.search s
  let newGuy := s.start + r.1 * (T.sizeof : Int)
  let mem1 := construct T s.mem newGuy
  let a := s.toc + (r.2.1 : Int)
  let mem2 := store mem1 a (u8 (mem1 a ||| (1 <<< r.2.2)))
  ({ s with mem := mem2, count := u32 (s.count + 1) }, newGuy)

/-- The method `Remove(T *object)` (lines 159-172). -/
def Remove (T : ElemType) (s : CContainer) (object : Int) : CContainer :=
  let index := u64 (object - s.start) / T.sizeof
  let byteIndex := u32 (index / 8)
  let bitIndex := u32 (7 - index % 8)
  let a := s.toc + (byteIndex : Int)
  let mem1 := store s.mem a (u8 (s.mem a &&& not32 (1 <<< bitIndex)))
  let mem2 := destruct T mem1 object
  { s with mem := mem2, count := dec32 s.count }

/-- Inner loop of `getNthValidElementIndex` (lines 222-232) over one byte, on the pair
`(onesCount, currentIndex)`: `Sum.inl` is the value of the `return` inside the loop,
`Sum.inr` the pair with which the loop ends. -/
def getNthValidElementIndex.inner (byte n : Nat) : Nat → Nat × Nat → Nat ⊕ (Nat × Nat)
  | 0, st => Sum.inr st
  | i + 1, (onesCount, currentIndex) =>
    if bitTest byte i then
      if onesCount = n then Sum.inl currentIndex
      else getNthValidElementIndex.inner byte n i (u32 (onesCount + 1), u32 (currentIndex + 1))
    else getNthValidElementIndex.inner byte n i (onesCount, u32 (currentIndex + 1))

/-- Outer loop of `getNthValidElementIndex` (lines 220-235) with `k` bytes left to visit
from `currentByte`; `return NULL` is the value 0. -/
def getNthValidElementIndex.scan (s : CContainer) (n : Nat) : Nat → Nat → Nat × Nat → Nat
  | 0, _, _ => 0
  | k + 1, currentByte, st =>
    match getNthValidElementIndex.inner (s.mem (s.toc + (currentByte : Int))) n 8 st with
    | Sum.inl r => r
    | Sum.inr st1 => getNthValidElementIndex.scan s n k (currentByte + 1) st1

/-- The method `getNthValidElementIndex(unsigned n)` (lines 213-236). -/
def getNthValidElementIndex (s : CContainer) (n : Nat) : Nat :=
  getNthValidElementIndex.scan s n s.bitmaskBytes 0 (0, 0)

/-- The two `operator []` (lines 199-209), which have the same body. -/
def subscript (T : ElemType) (s : CContainer) (nIndex : Nat) : Int :=
  let indexOfNthElement := getNthValidElementIndex s nIndex
  s.start + ((u64 ((T.sizeof : Int) * (indexOfNthElement : Int)) : Nat) : Int)

/-- A state whose geometry is the one the constructor computes for some buffer, with any
memory contents and any `unsigned` value of `count`. -/
def Constructed (T : ElemType) (s : CContainer) : Prop :=
  ∃ (pBuffer : Int) (nBufferSize : Nat),
    s = { ctor T s.mem pBuffer nBufferSize with count := s.count } ∧ s.count < 2 ^ 32

/-- Number of set bits of the bitmask with index below `j` in scan order. -/
def rank (s : CContainer) (j : Nat) : Nat :=
  Nat.count (fun i => s.bit i = true) j

/-- Number of set bits among the `8 * bitmaskBytes` scanned bits of the bitmask. -/
def popcount (s : CContainer) : Nat :=
  rank s (8 * s.bitmaskBytes)

/-- The state after `n` successive calls of `Add`, the returned pointers discarded. -/
def AddN (T : ElemType) : Nat → CContainer → CContainer
  | 0, s => s
  | n + 1, s => AddN T n (Add T s).1

end CContainer

/-- A container of 1-byte elements constructed over a buffer of `2^31 + 8` bytes at address
`2^32`, in the state `2^31` calls of `Add` on the zero-filled buffer lead to: the first
`2^28` bytes of the bitmask are `0xFF` (slots `0` to `2^31 - 1` occupied), every other
byte is `0`, and `count` is `2^31`. -/
def halfFull : CContainer :=
  { CContainer.ctor CByteClass
      (fun a => if 2 ^ 32 ≤ a ∧ a < 2 ^ 32 + 2 ^ 28 then 255 else 0) (2 ^ 32) (2 ^ 31 + 8)
    with count := 2 ^ 31 }

/-- A freshly constructed container of 16-byte elements over a zero-filled buffer of 2048
bytes at address 1000 (the geometry of the design comment). -/
def fresh2048 : CContainer :=
  CContainer.ctor CTestClass (fun _ => 0) 1000 2048

/-- The state `fresh2048` with `count` at the largest `unsigned` value; it is the state a
`Remove` on the fresh container leaves (`count--` on 0). -/
def countMax : CContainer :=
  { fresh2048 with count := 2 ^ 32 - 1 }

/-- A freshly constructed container of 1-byte elements over a zero-filled buffer of 16
bytes at address 1000: two bitmask bytes, 16 scanned bits. -/
def fresh16 : CContainer :=
  CContainer.ctor CByteClass (fun _ => 0) 1000 16

/-- A freshly constructed container of 1-byte elements over a zero-filled buffer of 8
bytes at address 1000: one bitmask byte, `Capacity() = 7`. -/
def fresh8 : CContainer :=
  CContainer.ctor CByteClass (fun _ => 0) 1000 8

/-- A freshly constructed container of 1-byte elements over a zero-filled buffer of 9
bytes at address 1000: one bitmask byte, `Capacity() = 8`. -/
def fresh9 : CContainer :=
  CContainer.ctor CByteClass (fun _ => 0) 1000 9

/-- A freshly constructed container of 16-byte elements over a zero-filled buffer of 64
bytes at address 1000: `Capacity() = 4`, and no bitmask byte. -/
def fresh64 : CContainer :=
  CContainer.ctor CTestClass (fun _ => 0) 1000 64

/-- A freshly constructed container of 16-byte elements over a zero-filled buffer of 128
bytes at address 1000: one bitmask byte, `Capacity() = 8`. -/
def fresh128 : CContainer :=
  CContainer.ctor CTestClass (fun _ => 0) 1000 128

/-- A freshly constructed container of 16-byte elements over a buffer of 2048 bytes at
address 1000 that is not zero-filled: its first byte is `0x80`, every other byte is 0. -/
def dirty2048 : CContainer :=
  CContainer.ctor CTestClass (fun a => if a = 1000 then 128 else 0) 1000 2048

/-- A freshly constructed container of 16-byte elements over a zero-filled buffer of 8
bytes at address 1000: the buffer is smaller than one element. -/
def tiny8 : CContainer :=
  CContainer.ctor CTestClass (fun _ => 0) 1000 8

/-! ## Bytes and bits -/

theorem bitTest_eq_testBit (b i : Nat) : bitTest b i = b.testBit i := by
  unfold bitTest
  rw [Nat.one_shiftLeft]
  by_cases h : b.testBit i = true
  · rw [h]
    have h1 : (b &&& 2 ^ i).testBit i = true := by
      rw [Nat.testBit_and, h, Nat.testBit_two_pow_self]; rfl
    have h2 : b &&& 2 ^ i ≠ 0 := by
      intro h0
      rw [h0, Nat.zero_testBit] at h1
      exact Bool.false_ne_true h1
    simpa using h2
  · have hf : b.testBit i = false := by simpa using h
    rw [hf]
    have h0 : b &&& 2 ^ i = 0 := by
      apply Nat.eq_of_testBit_eq
      intro k
      rw [Nat.testBit_and, Nat.zero_testBit, Nat.testBit_two_pow]
      by_cases hk : i = k
      · subst hk; simp [hf]
      · simp [hk]
    simp [h0]

theorem testBit_setBit (b i k : Nat) (hk : k < 8) :
    (u8 (b ||| (1 <<< i))).testBit k = (b.testBit k || decide (i = k)) := by
  unfold u8
  rw [Nat.one_shiftLeft, show (256 : Nat) = 2 ^ 8 from rfl, Nat.testBit_mod_two_pow,
    Nat.testBit_or, Nat.testBit_two_pow]
  simp [hk]

theorem testBit_clearBit (b i k : Nat) (hi : i < 32) (hk : k < 8) :
    (u8 (b &&& not32 (1 <<< i))).testBit k = (b.testBit k && !decide (i = k)) := by
  unfold u8 not32
  have hlt : 2 ^ i < 2 ^ 32 := Nat.pow_lt_pow_right (by decide) hi
  rw [Nat.one_shiftLeft, Nat.mod_eq_of_lt hlt, show (256 : Nat) = 2 ^ 8 from rfl,
    Nat.testBit_mod_two_pow, Nat.testBit_and, Nat.sub_sub,
    show 1 + 2 ^ i = 2 ^ i + 1 from Nat.add_comm _ _,
    Nat.testBit_two_pow_sub_succ hlt, Nat.testBit_two_pow]
  have : k < 32 := by omega
  simp [hk, this]

/-! ## The search loop of Add -/

namespace CContainer

theorem i32_of_lt (j : Nat) (h : j < 2 ^ 31) : i32 j = (j : Int) := by
  unfold i32
  have : j % 2 ^ 32 = j := Nat.mod_eq_of_lt (by omega)
  rw [this, if_pos h]

theorem i32_ne_neg_one (j : Nat) (h : j < 2 ^ 32 - 1) : i32 j ≠ -1 := by
  unfold i32
  have : j % 2 ^ 32 = j := Nat.mod_eq_of_lt (by omega)
  rw [this]
  split <;> omega

theorem Add.inner_found (byte cb : Nat) (r : Int × Nat × Nat) :
    ∀ n i, i < n → byte.testBit i = false → (∀ k, i < k → k < n → byte.testBit k = true) →
      Add.inner byte cb n r = (i32 (u32 (u32 (cb * 8) + (7 - i))), cb, i) := by
  intro n
  induction n with
  | zero => intro i hi; omega
  | succ n ih =>
    intro i hi hz hones
    unfold Add.inner
    rw [bitTest_eq_testBit]
    by_cases hin : i = n
    · subst hin
      simp [hz]
    · have hn : byte.testBit n = true := hones n (by omega) (by omega)
      simp only [hn, Bool.not_true, Bool.false_eq_true, if_false]
      exact ih i (by omega) hz (fun k h1 h2 => hones k h1 (by omega))

theorem Add.inner_none (byte cb : Nat) (r : Int × Nat × Nat) :
    ∀ n, (∀ k, k < n → byte.testBit k = true) → Add.inner byte cb n r = r := by
  intro n
  induction n with
  | zero => intro _; rfl
  | succ n ih =>
    intro hones
    unfold Add.inner
    rw [bitTest_eq_testBit]
    have hn : byte.testBit n = true := hones n (by omega)
    simp only [hn, Bool.not_true, Bool.false_eq_true, if_false]
    exact ih (fun k h => hones k (by omega))

theorem bit_byte (s : CContainer) (cb i : Nat) (hi : i < 8) :
    s.bit (8 * cb + (7 - i)) = (s.mem (s.toc + (cb : Int))).testBit i := by
  unfold bit
  have h1 : (8 * cb + (7 - i)) / 8 = cb := by omega
  have h2 : 7 - (8 * cb + (7 - i)) % 8 = i := by omega
  rw [h1, h2]

theorem Add.scan_found (s : CContainer) :
    ∀ k cb (r : Int × Nat × Nat), r.1 = -1 → ∀ j, 8 * cb ≤ j → j < 8 * (cb + k) →
      j < 2 ^ 32 - 1 → s.bit j = false → (∀ i, 8 * cb ≤ i → i < j → s.bit i = true) →
      Add.scan s k cb r = (i32 j, j / 8, 7 - j % 8) := by
  intro k
  induction k with
  | zero => intro cb r _ j h1 h2; omega
  | succ k ih =>
    intro cb r hr j hlo hhi hj hz hones
    unfold Add.scan
    by_cases hcur : j < 8 * cb + 8
    · have hjb : j / 8 = cb := by omega
      have hj8 : 8 * cb + (7 - (7 - j % 8)) = j := by omega
      have hfound := Add.inner_found (s.mem (s.toc + (cb : Int))) cb r 8 (7 - j % 8) (by omega)
        (by rw [← bit_byte s cb _ (by omega), hj8]; exact hz)
        (fun k h1 h2 => by
          rw [← bit_byte s cb k h2]
          exact hones _ (by omega) (by omega))
      have hval : u32 (u32 (cb * 8) + (7 - (7 - j % 8))) = j := by
        unfold u32
        omega
      rw [hval] at hfound
      simp only [hfound]
      rw [if_pos (i32_ne_neg_one j hj), hjb]
    · have hnone := Add.inner_none (s.mem (s.toc + (cb : Int))) cb r 8
        (fun k h => by
          rw [← bit_byte s cb k h]
          exact hones _ (by omega) (by omega))
      simp only [hnone]
      rw [if_neg (by simpa using hr)]
      exact ih (cb + 1) r hr j (by omega) (by omega) hj hz
        (fun i h1 h2 => hones i (by omega) h2)

theorem Add.scan_none (s : CContainer) :
    ∀ k cb (r : Int × Nat × Nat), r.1 = -1 →
      (∀ i, 8 * cb ≤ i → i < 8 * (cb + k) → s.bit i = true) → Add.scan s k cb r = r := by
  intro k
  induction k with
  | zero => intro cb r _ _; rfl
  | succ k ih =>
    intro cb r hr hones
    unfold Add.scan
    have hnone := Add.inner_none (s.mem (s.toc + (cb : Int))) cb r 8
      (fun k h => by
        rw [← bit_byte s cb k h]
        exact hones _ (by omega) (by omega))
    simp only [hnone]
    rw [if_neg (by simpa using hr)]
    exact ih (cb + 1) r hr (fun i h1 h2 => hones i (by omega) (by omega))

end CContainer

/-! ## Geometry of a constructed container -/

namespace CContainer

theorem Constructed.geom {T : ElemType} {s : CContainer} (h : Constructed T s) :
    s.start = s.toc + (s.bitmaskBytes : Int) ∧ s.bitmaskBytes = s.bitmaskLength / 8 ∧
      s.bitmaskLength = s.bufferSize / T.sizeof ∧ s.bufferSize < 2 ^ 32 ∧
      s.maxCount + s.bitmaskBytes / T.sizeof = s.bitmaskLength ∧ s.count < 2 ^ 32 := by
  obtain ⟨p, n, hs, hc⟩ := h
  have h1 := congrArg CContainer.start hs
  have h2 := congrArg CContainer.toc hs
  have h3 := congrArg CContainer.bitmaskBytes hs
  have h4 := congrArg CContainer.bitmaskLength hs
  have h5 := congrArg CContainer.bufferSize hs
  have h6 := congrArg CContainer.maxCount hs
  simp only [ctor] at h1 h2 h3 h4 h5 h6
  have hb : s.bufferSize < 2 ^ 32 := by rw [h5]; exact Nat.mod_lt _ (by norm_num)
  have hdiv : s.bufferSize / T.sizeof ≤ s.bufferSize := Nat.div_le_self _ _
  have hL : s.bitmaskLength = s.bufferSize / T.sizeof := by
    rw [h4, ← h5]; unfold u32; exact Nat.mod_eq_of_lt (by omega)
  have hB : s.bitmaskBytes = s.bitmaskLength / 8 := by rw [h3, ← h4]
  have hdiv2 : s.bitmaskBytes / T.sizeof ≤ s.bitmaskBytes := Nat.div_le_self _ _
  refine ⟨?_, hB, hL, hb, ?_, hc⟩
  · rw [h1, ← h2, ← h4, ← hB]
  · rw [← h4, ← hB] at h6
    have hL32 : s.bitmaskLength < 2 ^ 32 := by omega
    have hB8 : s.bitmaskBytes ≤ s.bitmaskLength := by omega
    rw [h6]
    generalize s.bitmaskBytes / T.sizeof = x at hdiv2 ⊢
    generalize s.bitmaskLength = L at hL32 hB8 ⊢
    generalize s.bitmaskBytes = B at hdiv2 hB8
    clear h1 h2 h3 h4 h5 h6 hL hB hs hdiv hb
    unfold u32 u64
    omega

theorem Constructed.bits_lt {T : ElemType} {s : CContainer} (h : Constructed T s) :
    8 * s.bitmaskBytes < 2 ^ 32 - 1 ∧ 8 * s.bitmaskBytes * T.sizeof ≤ s.bufferSize := by
  obtain ⟨_, hB, hL, hb, _, _⟩ := h.geom
  have hdiv : s.bufferSize / T.sizeof ≤ s.bufferSize := Nat.div_le_self _ _
  have hmul : s.bufferSize / T.sizeof * T.sizeof ≤ s.bufferSize := Nat.div_mul_le_self _ _
  have h8 : 8 * s.bitmaskBytes ≤ s.bitmaskLength := by omega
  refine ⟨by omega, ?_⟩
  calc 8 * s.bitmaskBytes * T.sizeof ≤ s.bitmaskLength * T.sizeof :=
        Nat.mul_le_mul_right _ h8
    _ ≤ s.bufferSize := by rw [hL]; exact hmul

end CContainer

/-! ## Ranks of set bits and the loop of getNthValidElementIndex -/

namespace CContainer

theorem rank_succ (s : CContainer) (j : Nat) :
    s.rank (j + 1) = s.rank j + (if s.bit j = true then 1 else 0) := by
  unfold rank
  exact Nat.count_succ _ _

theorem rank_mono (s : CContainer) {i j : Nat} (h : i ≤ j) : s.rank i ≤ s.rank j := by
  unfold rank
  exact Nat.count_monotone _ h

theorem rank_lt_of_bit (s : CContainer) {i j : Nat} (h : i < j) (hb : s.bit i = true) :
    s.rank i < s.rank j := by
  have h1 := rank_succ s i
  rw [if_pos hb] at h1
  have h2 := rank_mono s (show i + 1 ≤ j from h)
  omega

/-- Two set bits of equal rank coincide. -/
theorem eq_of_rank_eq (s : CContainer) {i j : Nat} (hi : s.bit i = true) (hj : s.bit j = true)
    (h : s.rank i = s.rank j) : i = j := by
  rcases Nat.lt_trichotomy i j with hlt | heq | hgt
  · have := rank_lt_of_bit s hlt hi; omega
  · exact heq
  · have := rank_lt_of_bit s hgt hj; omega

theorem exists_of_lt_rank (s : CContainer) (n : Nat) :
    ∀ N, n < s.rank N → ∃ j, j < N ∧ s.bit j = true ∧ s.rank j = n := by
  intro N
  induction N with
  | zero => intro h; simp [rank] at h
  | succ N ih =>
    intro h
    rw [rank_succ] at h
    by_cases hlt : n < s.rank N
    · obtain ⟨j, hj, hb, hr⟩ := ih hlt
      exact ⟨j, by omega, hb, hr⟩
    · by_cases hb : s.bit N = true
      · rw [if_pos hb] at h
        exact ⟨N, by omega, hb, by omega⟩
      · rw [if_neg hb] at h
        omega

theorem getNthValidElementIndex.inner_spec (s : CContainer) (n cb j : Nat)
    (hcb : 8 * cb + 8 < 2 ^ 32) (hj : s.bit j = true) (hr : s.rank j = n) :
    ∀ i ones idx, idx + i = 8 * cb + 8 → i ≤ 8 → ones = s.rank idx → idx ≤ j →
      getNthValidElementIndex.inner (s.mem (s.toc + (cb : Int))) n i (ones, idx) =
        if j < 8 * cb + 8 then Sum.inl j else Sum.inr (s.rank (8 * cb + 8), 8 * cb + 8) := by
  intro i
  induction i with
  | zero =>
    intro ones idx h1 _ h3 h4
    unfold getNthValidElementIndex.inner
    have : idx = 8 * cb + 8 := by omega
    subst this
    rw [if_neg (by omega), h3]
  | succ i ih =>
    intro ones idx h1 h2 h3 h4
    unfold getNthValidElementIndex.inner
    rw [bitTest_eq_testBit]
    have hidx : idx = 8 * cb + (7 - i) := by omega
    have hbit : (s.mem (s.toc + (cb : Int))).testBit i = s.bit idx := by
      rw [hidx, bit_byte s cb i (by omega)]
    have hu : u32 (idx + 1) = idx + 1 := by unfold u32; omega
    have hsucc := rank_succ s idx
    rw [hbit, hu]
    by_cases hb : s.bit idx = true
    · rw [if_pos hb] at hsucc
      simp only [hb, if_true]
      by_cases hn : ones = n
      · have : idx = j := eq_of_rank_eq s hb hj (by omega)
        subst this
        rw [if_pos hn, if_pos (by omega)]
      · have hne : idx ≠ j := by
          intro h; subst h; omega
        have hrm := rank_mono s h4
        have hu2 : u32 (ones + 1) = ones + 1 := by
          have := rank_mono s (show idx ≤ 8 * cb + 8 by omega)
          have hle : s.rank (8 * cb + 8) ≤ 8 * cb + 8 := by
            unfold rank; exact Nat.count_le _
          unfold u32; omega
        rw [if_neg hn, hu2]
        exact ih (ones + 1) (idx + 1) (by omega) (by omega) (by omega) (by omega)
    · rw [if_neg hb] at hsucc
      have hne : idx ≠ j := by
        intro h; subst h; exact hb hj
      simp only [hb]
      exact ih ones (idx + 1) (by omega) (by omega) (by omega) (by omega)

theorem getNthValidElementIndex.scan_spec (s : CContainer) (n j : Nat)
    (hj : s.bit j = true) (hr : s.rank j = n) :
    ∀ k cb, 8 * (cb + k) < 2 ^ 32 → 8 * cb ≤ j → j < 8 * (cb + k) →
      getNthValidElementIndex.scan s n k cb (s.rank (8 * cb), 8 * cb) = j := by
  intro k
  induction k with
  | zero => intro cb _ h1 h2; omega
  | succ k ih =>
    intro cb hlt h1 h2
    unfold getNthValidElementIndex.scan
    rw [getNthValidElementIndex.inner_spec s n cb j (by omega) hj hr 8 _ (8 * cb) (by omega)
      (by omega) rfl h1]
    by_cases hcur : j < 8 * cb + 8
    · rw [if_pos hcur]
    · rw [if_neg hcur]
      exact ih (cb + 1) (by omega) (by omega) (by omega)

theorem getNthValidElementIndex_spec {T : ElemType} {s : CContainer} (hC : Constructed T s)
    (j : Nat) (hlt : j < 8 * s.bitmaskBytes) (hj : s.bit j = true) :
    getNthValidElementIndex s (s.rank j) = j := by
  unfold getNthValidElementIndex
  have h0 : s.rank (8 * 0) = 0 := by simp [rank]
  have := getNthValidElementIndex.scan_spec s (s.rank j) j hj rfl s.bitmaskBytes 0
    (by have := hC.bits_lt; omega) (by omega) (by omega)
  rw [h0] at this
  exact this

end CContainer

/-! ## Effect of Add on the bitmask -/

namespace CContainer

theorem Constructed.update {T : ElemType} {s : CContainer} (h : Constructed T s)
    (m : Int → Nat) (c : Nat) (hc : c < 2 ^ 32) :
    Constructed T { s with mem := m, count := c } := by
  obtain ⟨p, n, hs, _⟩ := h
  refine ⟨p, n, ?_, hc⟩
  cases s
  simp only [ctor, mk.injEq] at hs ⊢
  obtain ⟨h1, h2, h3, _, h5, h6, h7, _⟩ := hs
  exact ⟨h1, h2, h3, trivial, h5, h6, h7, trivial⟩

theorem construct_outside (T : ElemType) (mem : Int → Nat) (p x : Int)
    (h : x < p ∨ p + (T.sizeof : Int) ≤ x) : construct T mem p x = mem x := by
  unfold construct
  rw [if_neg (by omega)]

theorem destruct_outside (T : ElemType) (mem : Int → Nat) (p x : Int)
    (h : x < p ∨ p + (T.sizeof : Int) ≤ x) : destruct T mem p x = mem x := by
  unfold destruct
  rw [if_neg (by omega)]

/-- The search loop on a bitmask whose lowest clear bit is `j`. -/
theorem Add.search_found {T : ElemType} {s : CContainer} (hC : Constructed T s) (j : Nat)
    (hj : j < 8 * s.bitmaskBytes) (hz : s.bit j = false)
    (hmin : ∀ i, i < j → s.bit i = true) :
    Add.search s = (i32 j, j / 8, 7 - j % 8) := by
  unfold Add.search
  exact Add.scan_found s s.bitmaskBytes 0 _ rfl j (by omega) (by omega)
    (by have := hC.bits_lt; omega) hz (fun i _ h => hmin i h)

/-- The search loop on a bitmask without a clear bit. -/
theorem Add.search_none (s : CContainer) (h : ∀ i, i < 8 * s.bitmaskBytes → s.bit i = true) :
    Add.search s = (-1, 0, 0) := by
  unfold Add.search
  exact Add.scan_none s s.bitmaskBytes 0 _ rfl (fun i _ h2 => h i (by omega))

/-- Bits of the mask after writing byte `v` at mask byte `c` over memory that agrees with
the old one on the mask bytes. -/
theorem bit_store (s : CContainer) (m : Int → Nat) (c v i : Nat) (cnt : Nat) :
    ({ s with mem := store m (s.toc + (c : Int)) v, count := cnt } : CContainer).bit i =
      if i / 8 = c then v.testBit (7 - i % 8) else (m (s.toc + ((i / 8 : Nat) : Int))).testBit (7 - i % 8) := by
  unfold bit store
  simp only
  by_cases h : i / 8 = c
  · rw [if_pos (by rw [h]), if_pos h]
  · rw [if_neg (by omega), if_neg h]

theorem Add_fst_mem (T : ElemType) (s : CContainer) :
    (Add T s).1 = { s with
      mem := store (construct T s.mem (Add T s).2) (s.toc + ((Add.search s).2.1 : Int))
        (u8 (construct T s.mem (Add T s).2 (s.toc + ((Add.search s).2.1 : Int)) |||
          (1 <<< (Add.search s).2.2))),
      count := u32 (s.count + 1) } := rfl

theorem Add_snd (T : ElemType) (s : CContainer) :
    (Add T s).2 = s.start + (Add.search s).1 * (T.sizeof : Int) := rfl

/-- Effect of `Add` on the scanned bits when the lowest clear bit is `j < 2^31`. -/
theorem Add_bit {T : ElemType} {s : CContainer} (hC : Constructed T s) (j : Nat)
    (hj : j < 8 * s.bitmaskBytes) (hz : s.bit j = false)
    (hmin : ∀ i, i < j → s.bit i = true) (h31 : j < 2 ^ 31) (i : Nat)
    (hi : i < 8 * s.bitmaskBytes) :
    (Add T s).1.bit i = (s.bit i || decide (i = j)) := by
  have hs := Add.search_found hC j hj hz hmin
  have hstart := hC.geom.1
  have hp : (Add T s).2 = s.start + (j : Int) * (T.sizeof : Int) := by
    rw [Add_snd, hs, i32_of_lt j h31]
  have hnn : (0 : Int) ≤ (j : Int) * (T.sizeof : Int) := by positivity
  have hout : ∀ c : Nat, c < s.bitmaskBytes →
      construct T s.mem (Add T s).2 (s.toc + (c : Int)) = s.mem (s.toc + (c : Int)) := by
    intro c hc
    apply construct_outside
    left
    rw [hp, hstart]
    omega
  rw [Add_fst_mem, bit_store, hs]
  simp only
  rw [hout (j / 8) (by omega), hout (i / 8) (by omega)]
  by_cases h : i / 8 = j / 8
  · rw [if_pos h, testBit_setBit _ _ _ (by omega)]
    unfold bit
    rw [h]
    congr 1
    by_cases hij : i = j
    · subst hij; simp
    · have : ¬ (7 - j % 8 = 7 - i % 8) := by omega
      simp [hij, this]
  · rw [if_neg h]
    have hij : i ≠ j := by intro h2; subst h2; exact h rfl
    simp [bit, hij]

end CContainer

/-! ## Effect of Remove on the bitmask -/

namespace CContainer

theorem Remove_eq (T : ElemType) (s : CContainer) (object : Int) :
    Remove T s object = { s with
      mem := destruct T (store s.mem (s.toc + ((u32 (u64 (object - s.start) / T.sizeof / 8) : Nat) : Int))
        (u8 (s.mem (s.toc + ((u32 (u64 (object - s.start) / T.sizeof / 8) : Nat) : Int)) &&&
          not32 (1 <<< u32 (7 - u64 (object - s.start) / T.sizeof % 8))))) object,
      count := dec32 s.count } := rfl

/-- The index `Remove` recovers from the address of slot `j`. -/
theorem Remove_index {T : ElemType} {s : CContainer} (hC : Constructed T s) (j : Nat)
    (hj : j < 8 * s.bitmaskBytes) :
    u64 (slot T s j - s.start) / T.sizeof = j := by
  have hb := hC.bits_lt.2
  have hbs := hC.geom.2.2.2.1
  have hle : j * T.sizeof ≤ 8 * s.bitmaskBytes * T.sizeof :=
    Nat.mul_le_mul_right _ (by omega)
  have h1 : slot T s j - s.start = ((j * T.sizeof : Nat) : Int) := by
    unfold slot; push_cast; ring
  rw [h1]
  unfold u64
  have h2 : (((j * T.sizeof : Nat) : Int) % 2 ^ 64).toNat = j * T.sizeof := by
    generalize j * T.sizeof = x at hle
    omega
  rw [h2]
  exact Nat.mul_div_cancel _ T.sizeof_pos

/-- Effect of `Remove` on the scanned bits when called with the address of slot `j`. -/
theorem Remove_bit {T : ElemType} {s : CContainer} (hC : Constructed T s) (j : Nat)
    (hj : j < 8 * s.bitmaskBytes) (i : Nat) (hi : i < 8 * s.bitmaskBytes) :
    (Remove T s (slot T s j)).bit i = (s.bit i && !decide (i = j)) := by
  have hstart := hC.geom.1
  have hidx := Remove_index hC j hj
  have hlt := hC.bits_lt.1
  have hnn : (0 : Int) ≤ (j : Int) * (T.sizeof : Int) := by positivity
  rw [Remove_eq, hidx]
  have hu1 : u32 (j / 8) = j / 8 := by unfold u32; omega
  have hu2 : u32 (7 - j % 8) = 7 - j % 8 := by unfold u32; omega
  rw [hu1, hu2]
  unfold bit
  simp only
  rw [destruct_outside T _ _ _ (by left; unfold slot; rw [hstart]; omega)]
  unfold store
  by_cases h : i / 8 = j / 8
  · rw [if_pos (by rw [h]), testBit_clearBit _ _ _ (by omega) (by omega), h]
    congr 1
    by_cases hij : i = j
    · subst hij; simp
    · have : ¬ (7 - j % 8 = 7 - i % 8) := by omega
      simp [hij, this]
  · rw [if_neg (by omega)]
    have hij : i ≠ j := by intro h2; subst h2; exact h rfl
    simp [hij]

theorem Constructed.after_Add {T : ElemType} {s : CContainer} (h : Constructed T s) :
    Constructed T (Add T s).1 := by
  rw [Add_fst_mem]
  exact h.update _ _ (Nat.mod_lt _ (by norm_num))

theorem Constructed.after_Remove {T : ElemType} {s : CContainer} (h : Constructed T s) (p : Int) :
    Constructed T (Remove T s p) := by
  have hc := h.geom.2.2.2.2.2
  rw [Remove_eq]
  refine h.update _ _ ?_
  unfold dec32
  split
  · norm_num
  · omega

end CContainer

/-! ## C1: geometry computed by the constructor -/

namespace CContainer

/-- C1. For every `nBufferSize < 2^32` and every element type (size positive), the
constructor sets `bitmaskLength = bufferSize / elementSize`, `bitmaskBytes =
bitmaskLength / 8`, `start = pBuffer + bitmaskBytes`, `Count() = 0` and `Capacity() =
bitmaskLength - bitmaskBytes / elementSize` without underflow; for 16-byte elements a
buffer of 2048 bytes gives 128, 16 and capacity 127, one of 204800 bytes capacity 12700. -/
theorem C1_constructor_geometry (T : ElemType) (mem : Int → Nat) (pBuffer : Int)
    (nBufferSize : Nat) (hn : nBufferSize < 2 ^ 32) :
    (ctor T mem pBuffer nBufferSize).bitmaskLength = nBufferSize / T.sizeof ∧
    (ctor T mem pBuffer nBufferSize).bitmaskBytes = nBufferSize / T.sizeof / 8 ∧
    (ctor T mem pBuffer nBufferSize).toc = pBuffer ∧
    (ctor T mem pBuffer nBufferSize).start = pBuffer + ((nBufferSize / T.sizeof / 8 : Nat) : Int) ∧
    (ctor T mem pBuffer nBufferSize).Count = 0 ∧
    nBufferSize / T.sizeof / 8 / T.sizeof ≤ nBufferSize / T.sizeof ∧
    (ctor T mem pBuffer nBufferSize).Capacity =
      nBufferSize / T.sizeof - nBufferSize / T.sizeof / 8 / T.sizeof ∧
    (T.sizeof = 16 → nBufferSize = 2048 →
      (ctor T mem pBuffer nBufferSize).bitmaskLength = 128 ∧
      (ctor T mem pBuffer nBufferSize).bitmaskBytes = 16 ∧
      (ctor T mem pBuffer nBufferSize).Capacity = 127) ∧
    (T.sizeof = 16 → nBufferSize = 204800 →
      (ctor T mem pBuffer nBufferSize).Capacity = 12700) := by
  have hC : Constructed T (ctor T mem pBuffer nBufferSize) := ⟨pBuffer, nBufferSize, rfl, by
    show (0 : Nat) < 2 ^ 32
    norm_num⟩
  obtain ⟨h1, h2, h3, _, h5, _⟩ := hC.geom
  have hbuf : (ctor T mem pBuffer nBufferSize).bufferSize = nBufferSize :=
    Nat.mod_eq_of_lt hn
  rw [hbuf] at h3
  have hL := h3
  have hB : (ctor T mem pBuffer nBufferSize).bitmaskBytes = nBufferSize / T.sizeof / 8 := by
    rw [h2, h3]
  have hle : nBufferSize / T.sizeof / 8 / T.sizeof ≤ nBufferSize / T.sizeof :=
    le_trans (Nat.div_le_self _ _) (Nat.div_le_self _ _)
  have hcap : (ctor T mem pBuffer nBufferSize).Capacity =
      nBufferSize / T.sizeof - nBufferSize / T.sizeof / 8 / T.sizeof := by
    unfold Capacity
    rw [hB, hL] at h5
    omega
  refine ⟨hL, hB, rfl, ?_, rfl, hle, hcap, ?_, ?_⟩
  · rw [h1, hB]; rfl
  · intro h16 h2048
    rw [hL, hB, hcap, h16, h2048]
    exact ⟨by norm_num, by norm_num, by norm_num⟩
  · intro h16 hbig
    rw [hcap, h16, hbig]

/-- C1, at the buffer of the design comment: 2048 bytes, 16-byte elements. -/
theorem C1_constructor_geometry_witness :
    (2048 : Nat) < 2 ^ 32 ∧
    fresh2048.bitmaskLength = 128 ∧ fresh2048.bitmaskBytes = 16 ∧ fresh2048.Capacity = 127 :=
  ⟨by norm_num,
    ((C1_constructor_geometry CTestClass (fun _ => 0) 1000 2048 (by norm_num)).2.2.2.2.2.2.2.1
      rfl rfl)⟩

end CContainer

/-! ## A state whose lowest clear bit has index 2^31 -/

namespace CContainer

theorem halfFull_constructed : Constructed CByteClass halfFull :=
  ⟨2 ^ 32, 2 ^ 31 + 8, rfl, by show (2 ^ 31 : Nat) < 2 ^ 32; norm_num⟩

theorem halfFull_bitmaskBytes : halfFull.bitmaskBytes = 2 ^ 28 + 1 := by
  show u32 (u32 (2 ^ 31 + 8) / 1) / 8 = 2 ^ 28 + 1
  unfold u32
  norm_num

theorem halfFull_toc : halfFull.toc = 2 ^ 32 := rfl

theorem halfFull_mem (a : Int) :
    halfFull.mem a = if 2 ^ 32 ≤ a ∧ a < 2 ^ 32 + 2 ^ 28 then 255 else 0 := rfl

theorem halfFull_bit_low (i : Nat) (h : i < 2 ^ 31) : halfFull.bit i = true := by
  unfold bit
  rw [halfFull_toc, halfFull_mem, if_pos (by omega)]
  rw [show (255 : Nat) = 2 ^ 8 - 1 from rfl, Nat.testBit_two_pow_sub_one]
  simp
  omega

theorem halfFull_bit_high : halfFull.bit (2 ^ 31) = false := by
  unfold bit
  rw [halfFull_toc, halfFull_mem, if_neg (by norm_num)]
  simp

theorem halfFull_search : Add.search halfFull = (-(2 ^ 31), 2 ^ 28, 7) := by
  rw [Add.search_found halfFull_constructed (2 ^ 31) (by rw [halfFull_bitmaskBytes]; norm_num)
    halfFull_bit_high (fun i h => halfFull_bit_low i h)]
  refine Prod.ext ?_ (Prod.ext ?_ ?_)
  · show i32 (2 ^ 31) = -(2 ^ 31)
    unfold i32
    norm_num
  · show 2 ^ 31 / 8 = 2 ^ 28
    norm_num
  · show 7 - 2 ^ 31 % 8 = 7
    norm_num

end CContainer

/-! ## C2, C3, C4: the search loop, Add and Remove on one slot -/

namespace CContainer

theorem fresh2048_constructed : Constructed CTestClass fresh2048 :=
  ⟨1000, 2048, rfl, by show (0 : Nat) < 2 ^ 32; norm_num⟩

theorem fresh2048_bit (i : Nat) : fresh2048.bit i = false := by
  unfold bit
  show Nat.testBit 0 _ = false
  exact Nat.zero_testBit _

theorem fresh2048_bitmaskBytes : fresh2048.bitmaskBytes = 16 := by decide

/-- C2 (amended). In every constructed state whose scanned bitmask has a clear bit, with
`j` the smallest index of a clear bit (bit `7 - j mod 8` of byte `j div 8`), the search
loop of `Add` leaves `firstEmptyIndexByte = j div 8` and `firstEmptyIndexBitOffset =
7 - j mod 8`, and the slot index `firstEmptyIndex` equals `j` provided `j < 2^31`. -/
theorem C2_search_lowest_clear_bit {T : ElemType} {s : CContainer} (hC : Constructed T s)
    (hfree : ∃ j, j < 8 * s.bitmaskBytes ∧ s.bit j = false) :
    ∃ j, j < 8 * s.bitmaskBytes ∧ s.bit j = false ∧ (∀ i, i < j → s.bit i = true) ∧
      (Add.search s).2.1 = j / 8 ∧ (Add.search s).2.2 = 7 - j % 8 ∧
      (j < 2 ^ 31 → (Add.search s).1 = (j : Int)) := by
  classical
  have hj := Nat.find_spec hfree
  have hmin : ∀ i, i < Nat.find hfree → s.bit i = true := by
    intro i hi
    have h := Nat.find_min hfree hi
    have hlt : i < 8 * s.bitmaskBytes := by omega
    simpa [hlt] using h
  have hs := Add.search_found hC (Nat.find hfree) hj.1 hj.2 hmin
  refine ⟨Nat.find hfree, hj.1, hj.2, hmin, ?_, ?_, ?_⟩
  · rw [hs]
  · rw [hs]
  · intro h31
    rw [hs]
    exact i32_of_lt _ h31

/-- C2 (amended), at the fresh container over 2048 bytes. -/
theorem C2_search_lowest_clear_bit_witness :
    Constructed CTestClass fresh2048 ∧
    (∃ j, j < 8 * fresh2048.bitmaskBytes ∧ fresh2048.bit j = false) ∧
    ∃ j, j < 8 * fresh2048.bitmaskBytes ∧ fresh2048.bit j = false ∧
      (∀ i, i < j → fresh2048.bit i = true) ∧
      (Add.search fresh2048).2.1 = j / 8 ∧ (Add.search fresh2048).2.2 = 7 - j % 8 ∧
      (j < 2 ^ 31 → (Add.search fresh2048).1 = (j : Int)) :=
  ⟨fresh2048_constructed, ⟨0, by decide, fresh2048_bit 0⟩,
    C2_search_lowest_clear_bit fresh2048_constructed ⟨0, by decide, fresh2048_bit 0⟩⟩

/-- C2 as stated fails: in `halfFull` the smallest index of a clear scanned bit is `2^31`,
and the slot index `firstEmptyIndex` the search loop leaves is `-2^31`. -/
theorem C2_counterexample :
    Constructed CByteClass halfFull ∧ 2 ^ 31 < 8 * halfFull.bitmaskBytes ∧
    halfFull.bit (2 ^ 31) = false ∧ (∀ i, i < 2 ^ 31 → halfFull.bit i = true) ∧
    (Add.search halfFull).1 = -(2 ^ 31) ∧ (Add.search halfFull).1 ≠ ((2 ^ 31 : Nat) : Int) := by
  refine ⟨halfFull_constructed, by rw [halfFull_bitmaskBytes]; norm_num, halfFull_bit_high,
    halfFull_bit_low, by rw [halfFull_search], ?_⟩
  rw [halfFull_search]
  norm_num

/-- C3 (amended). In every constructed state whose lowest clear scanned bit has index
`j < 2^31` and whose `Count()` is below `2^32 - 1`, `Add` returns the address
`start + j * elementSize`, sets bit `j`, leaves every other bit of the bitmask unchanged,
increases `Count()` by exactly 1 and leaves `Capacity()` unchanged. -/
theorem C3_Add_effect {T : ElemType} {s : CContainer} (hC : Constructed T s) (j : Nat)
    (hj : j < 8 * s.bitmaskBytes) (hz : s.bit j = false) (hmin : ∀ i, i < j → s.bit i = true)
    (h31 : j < 2 ^ 31) (hc : s.Count < 2 ^ 32 - 1) :
    (Add T s).2 = slot T s j ∧ (Add T s).1.bit j = true ∧
    (∀ i, i < 8 * s.bitmaskBytes → i ≠ j → (Add T s).1.bit i = s.bit i) ∧
    (Add T s).1.Count = s.Count + 1 ∧ (Add T s).1.Capacity = s.Capacity := by
  refine ⟨?_, ?_, ?_, ?_, rfl⟩
  · rw [Add_snd, Add.search_found hC j hj hz hmin, i32_of_lt j h31]
    rfl
  · rw [Add_bit hC j hj hz hmin h31 j hj]
    simp
  · intro i hi hij
    rw [Add_bit hC j hj hz hmin h31 i hi]
    simp [hij]
  · show u32 (s.count + 1) = s.count + 1
    unfold Count at hc
    unfold u32
    omega

/-- C3 (amended), at the fresh container over 2048 bytes: `Add` takes slot 0. -/
theorem C3_Add_effect_witness :
    Constructed CTestClass fresh2048 ∧ 0 < 8 * fresh2048.bitmaskBytes ∧
    fresh2048.bit 0 = false ∧ fresh2048.Count < 2 ^ 32 - 1 ∧
    (Add CTestClass fresh2048).2 = slot CTestClass fresh2048 0 ∧
    (Add CTestClass fresh2048).1.bit 0 = true ∧
    (∀ i, i < 8 * fresh2048.bitmaskBytes → i ≠ 0 →
      (Add CTestClass fresh2048).1.bit i = fresh2048.bit i) ∧
    (Add CTestClass fresh2048).1.Count = fresh2048.Count + 1 ∧
    (Add CTestClass fresh2048).1.Capacity = fresh2048.Capacity :=
  ⟨fresh2048_constructed, by decide, fresh2048_bit 0, by decide,
    C3_Add_effect fresh2048_constructed 0 (by decide) (fresh2048_bit 0)
      (fun i h => absurd h (Nat.not_lt_zero i)) (by norm_num) (by decide)⟩

/-- C3 as stated fails twice.  In `halfFull` the chosen index is `j = 2^31` and `Add`
returns `start - 2^31`, not `start + j * elementSize`.  In `countMax` bit 0 is clear and
`Add` takes `Count()` from `2^32 - 1` to 0. -/
theorem C3_counterexample :
    (halfFull.bit (2 ^ 31) = false ∧ (∀ i, i < 2 ^ 31 → halfFull.bit i = true) ∧
      (Add CByteClass halfFull).2 = halfFull.start - 2 ^ 31 ∧
      (Add CByteClass halfFull).2 ≠ slot CByteClass halfFull (2 ^ 31)) ∧
    (countMax.bit 0 = false ∧ countMax.Count = 2 ^ 32 - 1 ∧
      (Add CTestClass countMax).1.Count = 0) := by
  have hret : (Add CByteClass halfFull).2 = halfFull.start - 2 ^ 31 := by
    rw [Add_snd, halfFull_search]
    show halfFull.start + -(2 ^ 31) * ((1 : Nat) : Int) = halfFull.start - 2 ^ 31
    omega
  refine ⟨⟨halfFull_bit_high, halfFull_bit_low, hret, ?_⟩, fresh2048_bit 0, rfl, ?_⟩
  · rw [hret]
    unfold slot
    show halfFull.start - 2 ^ 31 ≠ halfFull.start + ((2 ^ 31 : Nat) : Int) * ((1 : Nat) : Int)
    omega
  · show u32 (2 ^ 32 - 1 + 1) = 0
    unfold u32
    norm_num

/-- C4 (amended). In every constructed state with `Count() >= 1` and for every slot index
`j < 8 * bitmaskBytes`, `Remove` called with `start + j * elementSize` recovers index `j`,
clears bit `j`, leaves every other bit of the bitmask unchanged, decreases `Count()` by
exactly 1 and leaves `Capacity()` unchanged. -/
theorem C4_Remove_effect {T : ElemType} {s : CContainer} (hC : Constructed T s) (j : Nat)
    (hj : j < 8 * s.bitmaskBytes) (hc : 1 ≤ s.Count) :
    u64 (slot T s j - s.start) / T.sizeof = j ∧
    (Remove T s (slot T s j)).bit j = false ∧
    (∀ i, i < 8 * s.bitmaskBytes → i ≠ j → (Remove T s (slot T s j)).bit i = s.bit i) ∧
    (Remove T s (slot T s j)).Count + 1 = s.Count ∧
    (Remove T s (slot T s j)).Capacity = s.Capacity := by
  refine ⟨Remove_index hC j hj, ?_, ?_, ?_, ?_⟩
  · rw [Remove_bit hC j hj j hj]
    simp
  · intro i hi hij
    rw [Remove_bit hC j hj i hi]
    simp [hij]
  · show dec32 s.count + 1 = s.count
    unfold Count at hc
    unfold dec32
    rw [if_neg (by omega)]
    omega
  · rfl

/-- C4 as stated fails: on the fresh container (`Count() = 0`), `Remove` of the address
of slot 0 leaves `Count() = 2^32 - 1`. -/
theorem C4_counterexample :
    0 < 8 * fresh2048.bitmaskBytes ∧ fresh2048.Count = 0 ∧
    (Remove CTestClass fresh2048 (slot CTestClass fresh2048 0)).Count = 4294967295 :=
  ⟨by decide, rfl, by
    show dec32 0 = 4294967295
    unfold dec32
    norm_num⟩

/-- C4 (amended), at the state after one `Add` on the fresh container over 2048 bytes. -/
theorem C4_Remove_effect_witness :
    Constructed CTestClass (Add CTestClass fresh2048).1 ∧
    0 < 8 * (Add CTestClass fresh2048).1.bitmaskBytes ∧
    1 ≤ (Add CTestClass fresh2048).1.Count ∧
    u64 (slot CTestClass (Add CTestClass fresh2048).1 0 - (Add CTestClass fresh2048).1.start)
      / CTestClass.sizeof = 0 ∧
    (Remove CTestClass (Add CTestClass fresh2048).1
      (slot CTestClass (Add CTestClass fresh2048).1 0)).bit 0 = false ∧
    (∀ i, i < 8 * (Add CTestClass fresh2048).1.bitmaskBytes → i ≠ 0 →
      (Remove CTestClass (Add CTestClass fresh2048).1
        (slot CTestClass (Add CTestClass fresh2048).1 0)).bit i =
      (Add CTestClass fresh2048).1.bit i) ∧
    (Remove CTestClass (Add CTestClass fresh2048).1
      (slot CTestClass (Add CTestClass fresh2048).1 0)).Count + 1 =
      (Add CTestClass fresh2048).1.Count ∧
    (Remove CTestClass (Add CTestClass fresh2048).1
      (slot CTestClass (Add CTestClass fresh2048).1 0)).Capacity =
      (Add CTestClass fresh2048).1.Capacity :=
  ⟨fresh2048_constructed.after_Add, by decide, by decide,
    C4_Remove_effect fresh2048_constructed.after_Add 0 (by decide) (by decide)⟩

end CContainer

/-! ## C5, C6: enumeration of the set bits -/

namespace CContainer

theorem subscript_eq_slot {T : ElemType} {s : CContainer} (hC : Constructed T s) (n : Nat)
    (h : getNthValidElementIndex s n < 8 * s.bitmaskBytes) :
    subscript T s n = slot T s (getNthValidElementIndex s n) := by
  unfold subscript slot
  simp only
  generalize getNthValidElementIndex s n = j at h
  have hb := hC.bits_lt.2
  have hbs := hC.geom.2.2.2.1
  have hle : j * T.sizeof ≤ 8 * s.bitmaskBytes * T.sizeof :=
    Nat.mul_le_mul_right _ (by omega)
  have h1 : (T.sizeof : Int) * (j : Int) = ((j * T.sizeof : Nat) : Int) := by
    push_cast; ring
  rw [h1]
  unfold u64
  have h2 : (((j * T.sizeof : Nat) : Int) % 2 ^ 64).toNat = j * T.sizeof := by
    generalize j * T.sizeof = x at hle
    omega
  rw [h2]
  push_cast
  ring

/-- The loop of `getNthValidElementIndex` finds the set bit of rank `n` when there is one. -/
theorem getNthValidElementIndex_found {T : ElemType} {s : CContainer} (hC : Constructed T s)
    (n : Nat) (hn : n < s.popcount) :
    getNthValidElementIndex s n < 8 * s.bitmaskBytes ∧
    s.bit (getNthValidElementIndex s n) = true ∧ s.rank (getNthValidElementIndex s n) = n := by
  obtain ⟨j, hj, hb, hr⟩ := exists_of_lt_rank s n _ hn
  have h := getNthValidElementIndex_spec hC j hj hb
  rw [hr] at h
  rw [h]
  exact ⟨hj, hb, hr⟩

theorem rank_lt_popcount (s : CContainer) (j : Nat) (hj : j < 8 * s.bitmaskBytes)
    (hb : s.bit j = true) : s.rank j < s.popcount :=
  rank_lt_of_bit s hj hb

/-- C5. In every constructed state and for every `n` smaller than the number of set bits
among the `8 * bitmaskBytes` scanned bits, `getNthValidElementIndex(n)` returns the index
`j` of the `(n+1)`-th set bit in scan order: bit `j` is 1 and exactly `n` bits of lower
index are 1; `operator[](n)` returns `start + j * elementSize`. -/
theorem C5_nth_set_bit {T : ElemType} {s : CContainer} (hC : Constructed T s) (n : Nat)
    (hn : n < s.popcount) :
    getNthValidElementIndex s n < 8 * s.bitmaskBytes ∧
    s.bit (getNthValidElementIndex s n) = true ∧
    s.rank (getNthValidElementIndex s n) = n ∧
    subscript T s n = slot T s (getNthValidElementIndex s n) := by
  obtain ⟨h1, h2, h3⟩ := getNthValidElementIndex_found hC n hn
  exact ⟨h1, h2, h3, subscript_eq_slot hC n h1⟩

/-- C6. In every constructed state in which `Count()` equals the number of set bits of the
bitmask, the addresses `operator[](k)` for `k < Count()` are strictly increasing in `k`,
hence `Count()` pairwise distinct addresses, each is the address of the slot
`getNthValidElementIndex(k)`, and these slot indices are exactly the indices of the set
bits. -/
theorem C6_enumeration {T : ElemType} {s : CContainer} (hC : Constructed T s)
    (hcount : s.Count = s.popcount) :
    (∀ k k2, k < k2 → k2 < s.Count → subscript T s k < subscript T s k2) ∧
    ((Finset.range s.Count).image (subscript T s)).card = s.Count ∧
    (∀ k, k < s.Count → subscript T s k = slot T s (getNthValidElementIndex s k)) ∧
    (∀ j, (∃ k, k < s.Count ∧ getNthValidElementIndex s k = j) ↔
      (j < 8 * s.bitmaskBytes ∧ s.bit j = true)) := by
  have hmono : ∀ k k2, k < k2 → k2 < s.Count → subscript T s k < subscript T s k2 := by
    intro k k2 hk hk2
    obtain ⟨a1, a2, a3⟩ := getNthValidElementIndex_found hC k (by omega)
    obtain ⟨b1, b2, b3⟩ := getNthValidElementIndex_found hC k2 (by omega)
    rw [subscript_eq_slot hC k a1, subscript_eq_slot hC k2 b1]
    have hlt : getNthValidElementIndex s k < getNthValidElementIndex s k2 := by
      by_contra hge
      have := rank_mono s (Nat.le_of_not_lt hge)
      omega
    unfold slot
    have hpos : (0 : Int) < (T.sizeof : Int) := by exact_mod_cast T.sizeof_pos
    have hlt2 : ((getNthValidElementIndex s k : Nat) : Int) <
        ((getNthValidElementIndex s k2 : Nat) : Int) := by exact_mod_cast hlt
    have := mul_lt_mul_of_pos_right hlt2 hpos
    omega
  refine ⟨hmono, ?_, ?_, ?_⟩
  · rw [Finset.card_image_of_injOn, Finset.card_range]
    intro a ha b hb hab
    simp only [Finset.coe_range, Set.mem_Iio] at ha hb
    rcases Nat.lt_trichotomy a b with h | h | h
    · have := hmono a b h hb; omega
    · exact h
    · have := hmono b a h ha; omega
  · intro k hk
    exact subscript_eq_slot hC k (getNthValidElementIndex_found hC k (by omega)).1
  · intro j
    constructor
    · rintro ⟨k, hk, rfl⟩
      obtain ⟨a1, a2, _⟩ := getNthValidElementIndex_found hC k (by omega)
      exact ⟨a1, a2⟩
    · rintro ⟨hj, hb⟩
      refine ⟨s.rank j, ?_, getNthValidElementIndex_spec hC j hj hb⟩
      rw [hcount]
      exact rank_lt_popcount s j hj hb

theorem Constructed.after_AddN {T : ElemType} (n : Nat) :
    ∀ {s : CContainer}, Constructed T s → Constructed T (AddN T n s) := by
  induction n with
  | zero => intro s h; exact h
  | succ n ih => intro s h; exact ih h.after_Add

theorem fresh16_constructed : Constructed CByteClass fresh16 :=
  ⟨1000, 16, rfl, by show (0 : Nat) < 2 ^ 32; norm_num⟩

/-- C5, at the container over 16 bytes after three calls of `Add`, for `n = 1`. -/
theorem C5_nth_set_bit_witness :
    Constructed CByteClass (AddN CByteClass 3 fresh16) ∧
    1 < (AddN CByteClass 3 fresh16).popcount ∧
    getNthValidElementIndex (AddN CByteClass 3 fresh16) 1 <
      8 * (AddN CByteClass 3 fresh16).bitmaskBytes ∧
    (AddN CByteClass 3 fresh16).bit (getNthValidElementIndex (AddN CByteClass 3 fresh16) 1)
      = true ∧
    (AddN CByteClass 3 fresh16).rank (getNthValidElementIndex (AddN CByteClass 3 fresh16) 1)
      = 1 ∧
    subscript CByteClass (AddN CByteClass 3 fresh16) 1 =
      slot CByteClass (AddN CByteClass 3 fresh16)
        (getNthValidElementIndex (AddN CByteClass 3 fresh16) 1) :=
  ⟨fresh16_constructed.after_AddN 3, by decide,
    C5_nth_set_bit (fresh16_constructed.after_AddN 3) 1 (by decide)⟩

/-- C6, at the container over 16 bytes after three calls of `Add`. -/
theorem C6_enumeration_witness :
    Constructed CByteClass (AddN CByteClass 3 fresh16) ∧
    (AddN CByteClass 3 fresh16).Count = (AddN CByteClass 3 fresh16).popcount ∧
    (∀ k k2, k < k2 → k2 < (AddN CByteClass 3 fresh16).Count →
      subscript CByteClass (AddN CByteClass 3 fresh16) k <
        subscript CByteClass (AddN CByteClass 3 fresh16) k2) ∧
    ((Finset.range (AddN CByteClass 3 fresh16).Count).image
      (subscript CByteClass (AddN CByteClass 3 fresh16))).card =
      (AddN CByteClass 3 fresh16).Count ∧
    (∀ k, k < (AddN CByteClass 3 fresh16).Count →
      subscript CByteClass (AddN CByteClass 3 fresh16) k =
        slot CByteClass (AddN CByteClass 3 fresh16)
          (getNthValidElementIndex (AddN CByteClass 3 fresh16) k)) ∧
    (∀ j, (∃ k, k < (AddN CByteClass 3 fresh16).Count ∧
        getNthValidElementIndex (AddN CByteClass 3 fresh16) k = j) ↔
      (j < 8 * (AddN CByteClass 3 fresh16).bitmaskBytes ∧
        (AddN CByteClass 3 fresh16).bit j = true)) :=
  ⟨fresh16_constructed.after_AddN 3, by decide,
    C6_enumeration (fresh16_constructed.after_AddN 3) (by decide)⟩

end CContainer

/-! ## C7: Add, Remove, Add -/

namespace CContainer

theorem Add_start (T : ElemType) (s : CContainer) : (Add T s).1.start = s.start := rfl

theorem Add_toc (T : ElemType) (s : CContainer) : (Add T s).1.toc = s.toc := rfl

theorem Add_bitmaskBytes (T : ElemType) (s : CContainer) :
    (Add T s).1.bitmaskBytes = s.bitmaskBytes := rfl

theorem Add_count (T : ElemType) (s : CContainer) :
    (Add T s).1.count = u32 (s.count + 1) := rfl

theorem Remove_start (T : ElemType) (s : CContainer) (p : Int) :
    (Remove T s p).start = s.start := rfl

theorem Remove_toc (T : ElemType) (s : CContainer) (p : Int) :
    (Remove T s p).toc = s.toc := rfl

theorem Remove_bitmaskBytes (T : ElemType) (s : CContainer) (p : Int) :
    (Remove T s p).bitmaskBytes = s.bitmaskBytes := rfl

theorem Remove_count (T : ElemType) (s : CContainer) (p : Int) :
    (Remove T s p).count = dec32 s.count := rfl

theorem dec32_u32_succ (c : Nat) (hc : c < 2 ^ 32) : dec32 (u32 (c + 1)) = c := by
  unfold dec32 u32
  split <;> omega

theorem Add_mem_at_byte (T : ElemType) (s : CContainer) :
    (Add T s).1.mem (s.toc + ((Add.search s).2.1 : Int)) =
      u8 (construct T s.mem (Add T s).2 (s.toc + ((Add.search s).2.1 : Int)) |||
        (1 <<< (Add.search s).2.2)) := by
  rw [Add_fst_mem]
  unfold store
  simp

/-- C7 (amended). In every constructed state whose lowest clear scanned bit has index
`j < 2^31`, `Add` followed by `Remove` of the address `Add` returned restores every bit of
the bitmask and `Count()`, and a further `Add` returns that same address again, with
`Count()` back at its value after the first `Add`. -/
theorem C7_add_remove_add {T : ElemType} {s : CContainer} (hC : Constructed T s) (j : Nat)
    (hj : j < 8 * s.bitmaskBytes) (hz : s.bit j = false) (hmin : ∀ i, i < j → s.bit i = true)
    (h31 : j < 2 ^ 31) :
    (∀ i, i < 8 * s.bitmaskBytes → (Remove T (Add T s).1 (Add T s).2).bit i = s.bit i) ∧
    (Remove T (Add T s).1 (Add T s).2).Count = s.Count ∧
    (Add T (Remove T (Add T s).1 (Add T s).2)).2 = (Add T s).2 ∧
    (Add T (Remove T (Add T s).1 (Add T s).2)).1.Count = (Add T s).1.Count := by
  have hCa : Constructed T (Add T s).1 := hC.after_Add
  have hret : (Add T s).2 = slot T (Add T s).1 j := by
    rw [Add_snd, Add.search_found hC j hj hz hmin, i32_of_lt j h31]
    rfl
  have hbits : ∀ i, i < 8 * s.bitmaskBytes →
      (Remove T (Add T s).1 (Add T s).2).bit i = s.bit i := by
    intro i hi
    rw [hret, Remove_bit hCa j hj i hi, Add_bit hC j hj hz hmin h31 i hi]
    by_cases hij : i = j
    · subst hij; simp [hz]
    · simp [hij]
  have hcnt : (Remove T (Add T s).1 (Add T s).2).count = s.count := by
    rw [Remove_count, Add_count]
    exact dec32_u32_succ _ hC.geom.2.2.2.2.2
  have hCr : Constructed T (Remove T (Add T s).1 (Add T s).2) := hCa.after_Remove _
  refine ⟨hbits, hcnt, ?_, ?_⟩
  · rw [Add_snd, Add.search_found hCr j hj (by rw [hbits j hj]; exact hz)
      (fun i hi => by rw [hbits i (by omega)]; exact hmin i hi), Add_snd,
      Add.search_found hC j hj hz hmin]
    rfl
  · show (Add T (Remove T (Add T s).1 (Add T s).2)).1.count = (Add T s).1.count
    rw [Add_count, hcnt, Add_count]

/-- C7 (amended), at the fresh container over 2048 bytes. -/
theorem C7_add_remove_add_witness :
    Constructed CTestClass fresh2048 ∧ 0 < 8 * fresh2048.bitmaskBytes ∧
    fresh2048.bit 0 = false ∧
    (∀ i, i < 8 * fresh2048.bitmaskBytes →
      (Remove CTestClass (Add CTestClass fresh2048).1 (Add CTestClass fresh2048).2).bit i =
        fresh2048.bit i) ∧
    (Remove CTestClass (Add CTestClass fresh2048).1 (Add CTestClass fresh2048).2).Count =
      fresh2048.Count ∧
    (Add CTestClass
      (Remove CTestClass (Add CTestClass fresh2048).1 (Add CTestClass fresh2048).2)).2 =
      (Add CTestClass fresh2048).2 ∧
    (Add CTestClass
      (Remove CTestClass (Add CTestClass fresh2048).1 (Add CTestClass fresh2048).2)).1.Count =
      (Add CTestClass fresh2048).1.Count :=
  ⟨fresh2048_constructed, by decide, fresh2048_bit 0,
    C7_add_remove_add fresh2048_constructed 0 (by decide) (fresh2048_bit 0)
      (fun i h => absurd h (Nat.not_lt_zero i)) (by norm_num)⟩

theorem halfFull_start : halfFull.start = 4294967296 + 268435456 + 1 := by
  show (2 ^ 32 + ((u32 (u32 (2 ^ 31 + 8) / 1) / 8 : Nat) : Int)) = _
  unfold u32
  norm_num

/-- After `Add` and `Remove` of the returned pointer, the bit `Add` set is still set when
neither the byte `Remove` rewrites nor the destroyed object is the byte of that bit. -/
theorem Remove_Add_keeps_bit (T : ElemType) (s : CContainer) (idx : Int) (byte off i : Nat)
    (hs : Add.search s = (idx, byte, off)) (hi8 : i / 8 = byte) (hoff : 7 - i % 8 = off)
    (hmiss : u32 (u64 (s.start + idx * (T.sizeof : Int) - s.start) / T.sizeof / 8) ≠ byte)
    (hout : s.toc + (byte : Int) < s.start + idx * (T.sizeof : Int) ∨
      s.start + idx * (T.sizeof : Int) + (T.sizeof : Int) ≤ s.toc + (byte : Int)) :
    (Remove T (Add T s).1 (Add T s).2).bit i = true := by
  have hret : (Add T s).2 = s.start + idx * (T.sizeof : Int) := by rw [Add_snd, hs]
  have hmem := Add_mem_at_byte T s
  rw [hs] at hmem
  simp only at hmem
  rw [Remove_eq]
  unfold bit
  simp only
  rw [Add_toc, Add_start, hret, hi8, destruct_outside _ _ _ _ hout]
  unfold store
  rw [if_neg (by intro h; apply hmiss; omega), hmem, hoff, testBit_setBit _ _ _ (by omega)]
  simp

theorem CByteClass_sizeof : CByteClass.sizeof = 1 := rfl

theorem u64_neg_two_pow : u64 (-(2 ^ 31)) = 18446744071562067968 := by
  unfold u64
  norm_num
  rfl

/-- C7 as stated fails: in `halfFull` the lowest clear scanned bit is bit `2^31`; `Add`
sets it and returns `start - 2^31`, and `Remove` of that address clears a bit of the byte
at `toc + 2^32 - 2^28`, so that bit `2^31` stays set and the bitmask is not restored. -/
theorem C7_counterexample :
    halfFull.bit (2 ^ 31) = false ∧ (∀ i, i < 2 ^ 31 → halfFull.bit i = true) ∧
    2 ^ 31 < 8 * halfFull.bitmaskBytes ∧
    (Remove CByteClass (Add CByteClass halfFull).1 (Add CByteClass halfFull).2).bit (2 ^ 31)
      = true := by
  refine ⟨halfFull_bit_high, halfFull_bit_low, by rw [halfFull_bitmaskBytes]; norm_num, ?_⟩
  have hdiff : halfFull.start + -(2 ^ 31) * (CByteClass.sizeof : Int) - halfFull.start =
      -(2 ^ 31) := by
    rw [CByteClass_sizeof]
    push_cast
    ring
  refine Remove_Add_keeps_bit CByteClass halfFull (-(2 ^ 31)) (2 ^ 28) 7 (2 ^ 31)
    halfFull_search (by norm_num) (by norm_num) ?_ ?_
  · rw [hdiff, u64_neg_two_pow, CByteClass_sizeof]
    unfold u32
    norm_num
  · right
    rw [halfFull_start, halfFull_toc, CByteClass_sizeof]
    norm_num

end CContainer

/-! ## C8, C9, C10: Add on a bitmask without a clear bit -/

namespace CContainer

/-- C8 fails on the code.  Over a zero-filled buffer of 9 bytes with 1-byte elements
(`Capacity() = 8`), each of the first 8 calls of `Add` finds a free slot and `IsFull()`
then holds with all 8 scanned bits set; the ninth `Add` does not fail: its search leaves
`firstEmptyIndex = -1`, it constructs an element at `start - 1`, which is the bitmask byte
`toc`, takes the bitmask byte from `0xFF` to `0x01` and `Count()` to 9.  Over a buffer of
8 bytes (`Capacity() = 7`, 8 scanned bits), `IsFull()` holds after 7 calls and call 8
takes slot 7, at offset 8 of the buffer, with `Count()` going to 8. -/
theorem C8_full_pool_Add :
    fresh9.Capacity = 8 ∧
    (∀ k, k < 8 → (Add.search (AddN CByteClass k fresh9)).1 = (k : Int)) ∧
    (AddN CByteClass 8 fresh9).IsFull = true ∧
    (∀ i, i < 8 * fresh9.bitmaskBytes → (AddN CByteClass 8 fresh9).bit i = true) ∧
    (Add.search (AddN CByteClass 8 fresh9)).1 = -1 ∧
    (Add CByteClass (AddN CByteClass 8 fresh9)).2 = fresh9.start - 1 ∧
    (Add CByteClass (AddN CByteClass 8 fresh9)).2 = fresh9.toc ∧
    (AddN CByteClass 8 fresh9).mem fresh9.toc = 255 ∧
    (Add CByteClass (AddN CByteClass 8 fresh9)).1.mem fresh9.toc = 1 ∧
    (AddN CByteClass 8 fresh9).Count = 8 ∧
    (Add CByteClass (AddN CByteClass 8 fresh9)).1.Count = 9 ∧
    fresh8.Capacity = 7 ∧
    (AddN CByteClass 7 fresh8).IsFull = true ∧
    (Add CByteClass (AddN CByteClass 7 fresh8)).2 = fresh8.toc + 8 ∧
    (Add CByteClass (AddN CByteClass 7 fresh8)).1.Count = 8 := by
  set_option maxRecDepth 8000 in
  refine ⟨by decide, by decide, by decide, by decide, by decide, by decide, by decide,
    by decide, by decide, by decide, by decide, by decide, by decide, by decide, by decide⟩

/-- C9 fails on the code.  Over a zero-filled buffer of 64 bytes with 16-byte elements
(`Capacity() = 4`, no bitmask byte) the first `Add` leaves `Count() = 1` with no set bit;
over a zero-filled buffer of 9 bytes with 1-byte elements nine calls of `Add` leave
`Count() = 9` with one set bit. -/
theorem C9_count_popcount_diverge :
    fresh64.Capacity = 4 ∧ (Add CTestClass fresh64).1.Count = 1 ∧
    (Add CTestClass fresh64).1.popcount = 0 ∧
    (AddN CByteClass 9 fresh9).Count = 9 ∧ (AddN CByteClass 9 fresh9).popcount = 1 := by
  set_option maxRecDepth 8000 in
  refine ⟨by decide, by decide, by decide, by decide, by decide⟩

/-- C10 fails on the code at the scenario of the specification.  A pool of 16-byte
elements with `Capacity() = 4` has a buffer of 64 to 79 bytes and no bitmask byte.  On
such a buffer of 64 bytes the four calls of `Add` all return `start - 16`; after `Remove`
of that address the next `Add` returns `start - 16` again, not `start + 1 * 16`, and
`operator[](1)` returns `start`. -/
theorem C10_capacity_four_scenario :
    fresh64.Capacity = 4 ∧ fresh64.bitmaskBytes = 0 ∧
    (∀ k, k < 4 → (Add CTestClass (AddN CTestClass k fresh64)).2 = fresh64.start - 16) ∧
    (AddN CTestClass 4 fresh64).IsFull = true ∧
    (Add CTestClass (Remove CTestClass (AddN CTestClass 4 fresh64) (fresh64.start - 16))).2
      = fresh64.start - 16 ∧
    (Add CTestClass (Remove CTestClass (AddN CTestClass 4 fresh64) (fresh64.start - 16))).2
      ≠ slot CTestClass fresh64 1 ∧
    subscript CTestClass
      (Add CTestClass (Remove CTestClass (AddN CTestClass 4 fresh64) (fresh64.start - 16))).1 1
      = fresh64.start ∧
    subscript CTestClass
      (Add CTestClass (Remove CTestClass (AddN CTestClass 4 fresh64) (fresh64.start - 16))).1 1
      ≠ (Add CTestClass
          (Remove CTestClass (AddN CTestClass 4 fresh64) (fresh64.start - 16))).2 := by
  set_option maxRecDepth 8000 in
  refine ⟨by decide, by decide, by decide, by decide, by decide, by decide, by decide,
    by decide⟩

end CContainer

/-! ## C17: Remove keeps the order of the remaining elements -/

namespace CContainer

/-- Ranks after `Remove` of the address of an occupied slot `j`: one less above `j`. -/
theorem Remove_rank {T : ElemType} {s : CContainer} (hC : Constructed T s) (j : Nat)
    (hj : j < 8 * s.bitmaskBytes) (hb : s.bit j = true) :
    ∀ i, i ≤ 8 * s.bitmaskBytes →
      (Remove T s (slot T s j)).rank i + (if j < i then 1 else 0) = s.rank i := by
  intro i
  induction i with
  | zero => intro _; simp [rank]
  | succ i ih =>
    intro hi
    have h := ih (by omega)
    have hbit := Remove_bit hC j hj i (by omega)
    rw [rank_succ, rank_succ, hbit]
    by_cases hij : i = j
    · subst hij
      simp only [hb, decide_True, Bool.not_true, Bool.and_false, Bool.false_eq_true, if_false,
        if_true]
      rw [if_neg (show ¬ i < i by omega)] at h
      rw [if_pos (show i < i + 1 by omega)]
      omega
    · have hd : decide (i = j) = false := by simpa using hij
      rw [hd]
      simp only [Bool.not_false, Bool.and_true]
      by_cases hlt : j < i
      · rw [if_pos hlt] at h
        rw [if_pos (show j < i + 1 by omega)]
        omega
      · rw [if_neg hlt] at h
        rw [if_neg (show ¬ j < i + 1 by omega)]
        omega

/-- C17. In every constructed state and for every occupied slot `j < 8 * bitmaskBytes` with
exactly `r` set bits of lower index, after `Remove` of the address of slot `j` the order
of the remaining elements is preserved: `getNthValidElementIndex(k)` is unchanged for
every `k < r`, and for every `k` with `r <= k` and `k + 1` below the former number of set
bits it equals the former `getNthValidElementIndex(k + 1)`. -/
theorem C17_Remove_preserves_order {T : ElemType} {s : CContainer} (hC : Constructed T s)
    (j : Nat) (hj : j < 8 * s.bitmaskBytes) (hb : s.bit j = true) (r : Nat)
    (hr : s.rank j = r) :
    (∀ k, k < r →
      getNthValidElementIndex (Remove T s (slot T s j)) k = getNthValidElementIndex s k) ∧
    (∀ k, r ≤ k → k + 1 < s.popcount →
      getNthValidElementIndex (Remove T s (slot T s j)) k =
        getNthValidElementIndex s (k + 1)) := by
  have hCr : Constructed T (Remove T s (slot T s j)) := hC.after_Remove _
  have hpop := rank_lt_popcount s j hj hb
  constructor
  · intro k hk
    obtain ⟨a1, a2, a3⟩ := getNthValidElementIndex_found hC k (by omega)
    have hlt : getNthValidElementIndex s k < j := by
      by_contra hge
      have := rank_mono s (Nat.le_of_not_lt hge)
      omega
    have hbit := Remove_bit hC j hj _ a1
    rw [a2] at hbit
    have hd : decide (getNthValidElementIndex s k = j) = false := by
      simpa using Nat.ne_of_lt hlt
    rw [hd] at hbit
    have hrank := Remove_rank hC j hj hb _ (Nat.le_of_lt a1)
    rw [if_neg (by omega)] at hrank
    have hspec := getNthValidElementIndex_spec hCr (getNthValidElementIndex s k)
      (by rw [Remove_bitmaskBytes]; exact a1) (by simpa using hbit)
    rw [show (Remove T s (slot T s j)).rank (getNthValidElementIndex s k) = k by omega] at hspec
    exact hspec
  · intro k hk hk1
    obtain ⟨a1, a2, a3⟩ := getNthValidElementIndex_found hC (k + 1) hk1
    have hlt : j < getNthValidElementIndex s (k + 1) := by
      by_contra hge
      have := rank_mono s (Nat.le_of_not_lt hge)
      omega
    have hbit := Remove_bit hC j hj _ a1
    rw [a2] at hbit
    have hd : decide (getNthValidElementIndex s (k + 1) = j) = false := by
      simpa using Nat.ne_of_gt hlt
    rw [hd] at hbit
    have hrank := Remove_rank hC j hj hb _ (Nat.le_of_lt a1)
    rw [if_pos hlt] at hrank
    have hspec := getNthValidElementIndex_spec hCr (getNthValidElementIndex s (k + 1))
      (by rw [Remove_bitmaskBytes]; exact a1) (by simpa using hbit)
    rw [show (Remove T s (slot T s j)).rank (getNthValidElementIndex s (k + 1)) = k by omega]
      at hspec
    exact hspec

/-- C17, at the container over 16 bytes after three calls of `Add`, removing slot 1. -/
theorem C17_Remove_preserves_order_witness :
    Constructed CByteClass (AddN CByteClass 3 fresh16) ∧
    1 < 8 * (AddN CByteClass 3 fresh16).bitmaskBytes ∧
    (AddN CByteClass 3 fresh16).bit 1 = true ∧
    (AddN CByteClass 3 fresh16).rank 1 = 1 ∧
    (∀ k, k < 1 →
      getNthValidElementIndex
        (Remove CByteClass (AddN CByteClass 3 fresh16)
          (slot CByteClass (AddN CByteClass 3 fresh16) 1)) k =
        getNthValidElementIndex (AddN CByteClass 3 fresh16) k) ∧
    (∀ k, 1 ≤ k → k + 1 < (AddN CByteClass 3 fresh16).popcount →
      getNthValidElementIndex
        (Remove CByteClass (AddN CByteClass 3 fresh16)
          (slot CByteClass (AddN CByteClass 3 fresh16) 1)) k =
        getNthValidElementIndex (AddN CByteClass 3 fresh16) (k + 1)) :=
  ⟨fresh16_constructed.after_AddN 3, by decide, by decide, by decide,
    C17_Remove_preserves_order (fresh16_constructed.after_AddN 3) 1 (by decide) (by decide) 1
      (by decide)⟩

end CContainer

/-! ## C11: lookup with an index out of range -/

namespace CContainer

theorem rank_le (s : CContainer) (i : Nat) : s.rank i ≤ i := by
  unfold rank
  exact Nat.count_le _

/-- The inner loop of `getNthValidElementIndex` runs to its end on a byte in which no set
bit has rank `n`. -/
theorem getNthValidElementIndex.inner_end (s : CContainer) (n cb : Nat)
    (hcb : 8 * cb + 8 < 2 ^ 32)
    (hn : ∀ j, j < 8 * cb + 8 → s.bit j = true → s.rank j ≠ n) :
    ∀ i ones idx, idx + i = 8 * cb + 8 → i ≤ 8 → ones = s.rank idx →
      getNthValidElementIndex.inner (s.mem (s.toc + (cb : Int))) n i (ones, idx) =
        Sum.inr (s.rank (8 * cb + 8), 8 * cb + 8) := by
  intro i
  induction i with
  | zero =>
    intro ones idx h1 _ h3
    unfold getNthValidElementIndex.inner
    have : idx = 8 * cb + 8 := by omega
    subst this
    rw [h3]
  | succ i ih =>
    intro ones idx h1 h2 h3
    unfold getNthValidElementIndex.inner
    rw [bitTest_eq_testBit]
    have hidx : idx = 8 * cb + (7 - i) := by omega
    have hbit : (s.mem (s.toc + (cb : Int))).testBit i = s.bit idx := by
      rw [hidx, bit_byte s cb i (by omega)]
    have hu : u32 (idx + 1) = idx + 1 := by unfold u32; omega
    have hsucc := rank_succ s idx
    rw [hbit, hu]
    by_cases hb : s.bit idx = true
    · rw [if_pos hb] at hsucc
      simp only [hb, if_true]
      have hne : ones ≠ n := by
        rw [h3]
        exact hn idx (by omega) hb
      have hu2 : u32 (ones + 1) = ones + 1 := by
        have := rank_le s idx
        unfold u32
        omega
      rw [if_neg hne, hu2]
      exact ih (ones + 1) (idx + 1) (by omega) (by omega) (by omega)
    · rw [if_neg hb] at hsucc
      simp only [hb]
      exact ih ones (idx + 1) (by omega) (by omega) (by omega)

theorem getNthValidElementIndex.scan_end (s : CContainer) (n : Nat) :
    ∀ k cb, 8 * (cb + k) < 2 ^ 32 →
      (∀ j, j < 8 * (cb + k) → s.bit j = true → s.rank j ≠ n) →
      getNthValidElementIndex.scan s n k cb (s.rank (8 * cb), 8 * cb) = 0 := by
  intro k
  induction k with
  | zero =>
    intro cb _ _
    unfold getNthValidElementIndex.scan
    rfl
  | succ k ih =>
    intro cb hlt hn
    unfold getNthValidElementIndex.scan
    rw [getNthValidElementIndex.inner_end s n cb (by omega)
      (fun j hj hb => hn j (by omega) hb) 8 _ (8 * cb) (by omega) (by omega) rfl]
    exact ih (cb + 1) (by omega) (fun j hj hb => hn j (by omega) hb)

/-- For `n` at least the number of set scanned bits, `getNthValidElementIndex(n)` is the
value of `return NULL`, that is 0, and `operator[](n)` is the address of slot 0. -/
theorem getNthValidElementIndex_out_of_range {T : ElemType} {s : CContainer}
    (hC : Constructed T s) (n : Nat) (hn : s.popcount ≤ n) :
    getNthValidElementIndex s n = 0 ∧ subscript T s n = slot T s 0 := by
  have h0 : s.rank (8 * 0) = 0 := by simp [rank]
  have hget : getNthValidElementIndex s n = 0 := by
    unfold getNthValidElementIndex
    have := getNthValidElementIndex.scan_end s n s.bitmaskBytes 0
      (by have := hC.bits_lt; omega)
      (fun j hj hb => by
        have := rank_lt_popcount s j (by omega) hb
        omega)
    rw [h0] at this
    exact this
  refine ⟨hget, ?_⟩
  unfold subscript slot
  simp only
  rw [hget]
  unfold u64
  simp

/-- C11 fails on the code.  After three calls of `Add` on the container over 16 bytes
(`Count() = 3`, slots 0, 1, 2 occupied), `getNthValidElementIndex(3)` and
`getNthValidElementIndex(100)` return 0, the index of the occupied slot 0, and
`operator[](3)` returns the address of slot 0, the same address as `operator[](0)`; on the
fresh container `operator[](0)` with `Count() = 0` returns the address of slot 0 too. -/
theorem C11_out_of_range_lookup :
    (AddN CByteClass 3 fresh16).Count = 3 ∧ (AddN CByteClass 3 fresh16).popcount = 3 ∧
    (AddN CByteClass 3 fresh16).bit 0 = true ∧
    getNthValidElementIndex (AddN CByteClass 3 fresh16) 3 = 0 ∧
    getNthValidElementIndex (AddN CByteClass 3 fresh16) 100 = 0 ∧
    getNthValidElementIndex (AddN CByteClass 3 fresh16) 0 = 0 ∧
    subscript CByteClass (AddN CByteClass 3 fresh16) 3 =
      slot CByteClass (AddN CByteClass 3 fresh16) 0 ∧
    subscript CByteClass (AddN CByteClass 3 fresh16) 3 =
      subscript CByteClass (AddN CByteClass 3 fresh16) 0 ∧
    fresh16.Count = 0 ∧ subscript CByteClass fresh16 0 = slot CByteClass fresh16 0 := by
  set_option maxRecDepth 8000 in
  refine ⟨by decide, by decide, by decide, by decide,
    (getNthValidElementIndex_out_of_range (fresh16_constructed.after_AddN 3) 100
      (by decide)).1,
    by decide, by decide, by decide, by decide, by decide⟩

end CContainer

/-! ## C12: Remove twice -/

namespace CContainer

theorem dec32_ne (c : Nat) (hc : c < 2 ^ 32) : dec32 c ≠ c := by
  unfold dec32
  split <;> omega

/-- C12 (amended). In every constructed state whose lowest clear scanned bit has index
`j < 2^31`, with `p` the address `Add` returns: the first `Remove(p)` clears bit `j` and
decrements `Count()` as an `unsigned` (back to its value before the `Add`); a second
`Remove(p)` with no intervening `Add` leaves every bit of the bitmask unchanged and
decrements `Count()` once more (0 wraps to `2^32 - 1`), so `Count()` changes. -/
theorem C12_double_Remove {T : ElemType} {s : CContainer} (hC : Constructed T s) (j : Nat)
    (hj : j < 8 * s.bitmaskBytes) (hz : s.bit j = false) (hmin : ∀ i, i < j → s.bit i = true)
    (h31 : j < 2 ^ 31) :
    (Add T s).1.bit j = true ∧
    (Remove T (Add T s).1 (Add T s).2).bit j = false ∧
    (Remove T (Add T s).1 (Add T s).2).Count = dec32 (Add T s).1.Count ∧
    (Remove T (Add T s).1 (Add T s).2).Count = s.Count ∧
    (∀ i, i < 8 * s.bitmaskBytes →
      (Remove T (Remove T (Add T s).1 (Add T s).2) (Add T s).2).bit i =
        (Remove T (Add T s).1 (Add T s).2).bit i) ∧
    (Remove T (Remove T (Add T s).1 (Add T s).2) (Add T s).2).Count =
      dec32 (Remove T (Add T s).1 (Add T s).2).Count ∧
    (Remove T (Remove T (Add T s).1 (Add T s).2) (Add T s).2).Count ≠
      (Remove T (Add T s).1 (Add T s).2).Count := by
  have hCa : Constructed T (Add T s).1 := hC.after_Add
  have hCr : Constructed T (Remove T (Add T s).1 (Add T s).2) := hCa.after_Remove _
  have hret : (Add T s).2 = slot T (Add T s).1 j := by
    rw [Add_snd, Add.search_found hC j hj hz hmin, i32_of_lt j h31]
    rfl
  have hret2 : (Add T s).2 = slot T (Remove T (Add T s).1 (Add T s).2) j := by
    rw [hret]
    rfl
  have hb1 : (Remove T (Add T s).1 (Add T s).2).bit j = false := by
    rw [hret, Remove_bit hCa j hj j hj]
    simp
  have hcnt : (Remove T (Add T s).1 (Add T s).2).count = s.count := by
    rw [Remove_count, Add_count]
    exact dec32_u32_succ _ hC.geom.2.2.2.2.2
  refine ⟨?_, hb1, Remove_count _ _ _, hcnt, ?_, Remove_count _ _ _, ?_⟩
  · rw [Add_bit hC j hj hz hmin h31 j hj]
    simp
  · intro i hi
    have h := Remove_bit hCr j hj i hi
    rw [← hret2] at h
    rw [h]
    by_cases hij : i = j
    · subst hij
      rw [hb1]
      simp
    · simp [hij]
  · show (Remove T (Remove T (Add T s).1 (Add T s).2) (Add T s).2).count ≠
      (Remove T (Add T s).1 (Add T s).2).count
    rw [Remove_count]
    exact dec32_ne _ hCr.geom.2.2.2.2.2

/-- C12 (amended), at the fresh container over 2048 bytes. -/
theorem C12_double_Remove_witness :
    Constructed CTestClass fresh2048 ∧ 0 < 8 * fresh2048.bitmaskBytes ∧
    fresh2048.bit 0 = false ∧
    (Add CTestClass fresh2048).1.bit 0 = true ∧
    (Remove CTestClass (Add CTestClass fresh2048).1 (Add CTestClass fresh2048).2).bit 0
      = false ∧
    (Remove CTestClass (Add CTestClass fresh2048).1 (Add CTestClass fresh2048).2).Count =
      dec32 (Add CTestClass fresh2048).1.Count ∧
    (Remove CTestClass (Add CTestClass fresh2048).1 (Add CTestClass fresh2048).2).Count =
      fresh2048.Count ∧
    (∀ i, i < 8 * fresh2048.bitmaskBytes →
      (Remove CTestClass
        (Remove CTestClass (Add CTestClass fresh2048).1 (Add CTestClass fresh2048).2)
        (Add CTestClass fresh2048).2).bit i =
      (Remove CTestClass (Add CTestClass fresh2048).1 (Add CTestClass fresh2048).2).bit i) ∧
    (Remove CTestClass
      (Remove CTestClass (Add CTestClass fresh2048).1 (Add CTestClass fresh2048).2)
      (Add CTestClass fresh2048).2).Count =
      dec32 (Remove CTestClass (Add CTestClass fresh2048).1
        (Add CTestClass fresh2048).2).Count ∧
    (Remove CTestClass
      (Remove CTestClass (Add CTestClass fresh2048).1 (Add CTestClass fresh2048).2)
      (Add CTestClass fresh2048).2).Count ≠
      (Remove CTestClass (Add CTestClass fresh2048).1 (Add CTestClass fresh2048).2).Count :=
  ⟨fresh2048_constructed, by decide, fresh2048_bit 0,
    C12_double_Remove fresh2048_constructed 0 (by decide) (fresh2048_bit 0)
      (fun i h => absurd h (Nat.not_lt_zero i)) (by norm_num)⟩

theorem halfFull_Remove_Add_bit :
    (Remove CByteClass (Add CByteClass halfFull).1 (Add CByteClass halfFull).2).bit (2 ^ 31)
      = true := by
  have hdiff : halfFull.start + -(2 ^ 31) * (CByteClass.sizeof : Int) - halfFull.start =
      -(2 ^ 31) := by
    rw [CByteClass_sizeof]
    push_cast
    ring
  refine Remove_Add_keeps_bit CByteClass halfFull (-(2 ^ 31)) (2 ^ 28) 7 (2 ^ 31)
    halfFull_search (by norm_num) (by norm_num) ?_ ?_
  · rw [hdiff, u64_neg_two_pow, CByteClass_sizeof]
    unfold u32
    norm_num
  · right
    rw [halfFull_start, halfFull_toc, CByteClass_sizeof]
    norm_num

/-- C12 as stated fails.  On the fresh container over 2048 bytes, after `Add` and
`Remove` of the returned address `Count()` is 0, and a second `Remove` of that address
does not fail: it takes `Count()` to `2^32 - 1`.  In `halfFull`, where `Add` takes the slot
of index `2^31`, the first `Remove` of the returned address leaves the bit of that slot
set. -/
theorem C12_counterexample :
    ((Remove CTestClass (Add CTestClass fresh2048).1 (Add CTestClass fresh2048).2).Count = 0 ∧
      (Remove CTestClass
        (Remove CTestClass (Add CTestClass fresh2048).1 (Add CTestClass fresh2048).2)
        (Add CTestClass fresh2048).2).Count = 4294967295) ∧
    (halfFull.bit (2 ^ 31) = false ∧ (∀ i, i < 2 ^ 31 → halfFull.bit i = true) ∧
      (Remove CByteClass (Add CByteClass halfFull).1 (Add CByteClass halfFull).2).bit (2 ^ 31)
        = true) := by
  have h1 : (Remove CTestClass (Add CTestClass fresh2048).1
      (Add CTestClass fresh2048).2).count = 0 := by
    rw [Remove_count, Add_count]
    exact dec32_u32_succ 0 (by norm_num)
  refine ⟨⟨h1, ?_⟩, halfFull_bit_high, halfFull_bit_low, halfFull_Remove_Add_bit⟩
  show (Remove CTestClass (Remove CTestClass (Add CTestClass fresh2048).1
    (Add CTestClass fresh2048).2) (Add CTestClass fresh2048).2).count = 4294967295
  rw [Remove_count, h1]
  unfold dec32
  norm_num

end CContainer

/-! ## C13, C14: what the constructor does not do -/

namespace CContainer

theorem ctor_constructed (T : ElemType) (mem : Int → Nat) (pBuffer : Int) (n : Nat) :
    Constructed T (ctor T mem pBuffer n) :=
  ⟨pBuffer, n, rfl, by show (0 : Nat) < 2 ^ 32; norm_num⟩

/-- C13 (amended). The constructor leaves the buffer as it is.  For every buffer whose
first `bitmaskBytes` bytes are 0, immediately after construction every bit of the
occupancy bitmask is 0, and the first `Add` on a container with a non-empty bitmask
returns the address of slot 0. -/
theorem C13_zeroed_bitmask (T : ElemType) (mem : Int → Nat) (pBuffer : Int) (n : Nat)
    (hzero : ∀ c : Nat, c < (ctor T mem pBuffer n).bitmaskBytes → mem (pBuffer + (c : Int)) = 0) :
    (ctor T mem pBuffer n).mem = mem ∧
    (∀ i, i < 8 * (ctor T mem pBuffer n).bitmaskBytes → (ctor T mem pBuffer n).bit i = false) ∧
    (0 < (ctor T mem pBuffer n).bitmaskBytes →
      (Add T (ctor T mem pBuffer n)).2 = slot T (ctor T mem pBuffer n) 0) := by
  have hbits : ∀ i, i < 8 * (ctor T mem pBuffer n).bitmaskBytes →
      (ctor T mem pBuffer n).bit i = false := by
    intro i hi
    unfold bit
    show (mem (pBuffer + ((i / 8 : Nat) : Int))).testBit (7 - i % 8) = false
    rw [hzero (i / 8) (by omega)]
    exact Nat.zero_testBit _
  refine ⟨rfl, hbits, ?_⟩
  intro hB
  rw [Add_snd, Add.search_found (ctor_constructed T mem pBuffer n) 0 (by omega)
    (hbits 0 (by omega)) (fun i h => absurd h (Nat.not_lt_zero i)), i32_of_lt 0 (by norm_num)]
  rfl

/-- C13 (amended), at the zero-filled buffer of 2048 bytes. -/
theorem C13_zeroed_bitmask_witness :
    (∀ c : Nat, c < (ctor CTestClass (fun _ => 0) 1000 2048).bitmaskBytes →
      (fun _ => 0 : Int → Nat) (1000 + (c : Int)) = 0) ∧
    (ctor CTestClass (fun _ => 0) 1000 2048).mem = (fun _ => 0) ∧
    (∀ i, i < 8 * (ctor CTestClass (fun _ => 0) 1000 2048).bitmaskBytes →
      (ctor CTestClass (fun _ => 0) 1000 2048).bit i = false) ∧
    (0 < (ctor CTestClass (fun _ => 0) 1000 2048).bitmaskBytes →
      (Add CTestClass (ctor CTestClass (fun _ => 0) 1000 2048)).2 =
        slot CTestClass (ctor CTestClass (fun _ => 0) 1000 2048) 0) :=
  ⟨fun _ _ => rfl, C13_zeroed_bitmask CTestClass (fun _ => 0) 1000 2048 (fun _ _ => rfl)⟩

/-- C13 as stated fails: over a buffer of 2048 bytes whose first byte is `0x80`, bit 0 of
the bitmask is 1 immediately after construction, and the first `Add` returns the address
of slot 1, not of slot 0. -/
theorem C13_counterexample :
    0 < dirty2048.bitmaskBytes ∧ dirty2048.Count = 0 ∧ dirty2048.bit 0 = true ∧
    (Add CTestClass dirty2048).2 = slot CTestClass dirty2048 1 ∧
    (Add CTestClass dirty2048).2 ≠ slot CTestClass dirty2048 0 := by
  refine ⟨by decide, by decide, by decide, by decide, by decide⟩

/-- C14 (amended). The constructor has no error result: for every `nBufferSize < 2^32` it
produces a container, whose `Capacity()` is 0 exactly when `bufferSize < elementSize`; in
that case `bitmaskLength`, `bitmaskBytes` and `Count()` are 0 too and `IsFull()` holds. -/
theorem C14_small_buffer (T : ElemType) (mem : Int → Nat) (pBuffer : Int) (n : Nat)
    (hn : n < 2 ^ 32) :
    ((ctor T mem pBuffer n).Capacity = 0 ↔ n < T.sizeof) ∧
    (n < T.sizeof →
      (ctor T mem pBuffer n).bitmaskLength = 0 ∧ (ctor T mem pBuffer n).bitmaskBytes = 0 ∧
      (ctor T mem pBuffer n).Capacity = 0 ∧ (ctor T mem pBuffer n).Count = 0 ∧
      (ctor T mem pBuffer n).IsFull = true) := by
  obtain ⟨_, h2, h3, _, h5, _⟩ := (ctor_constructed T mem pBuffer n).geom
  have hbuf : (ctor T mem pBuffer n).bufferSize = n := Nat.mod_eq_of_lt hn
  rw [hbuf] at h3
  have hdiv : (ctor T mem pBuffer n).bitmaskBytes / T.sizeof ≤
      (ctor T mem pBuffer n).bitmaskBytes := Nat.div_le_self _ _
  have hL0 : n / T.sizeof = 0 ↔ n < T.sizeof := by
    rw [Nat.div_eq_zero_iff T.sizeof_pos]
  have hcap : (ctor T mem pBuffer n).Capacity = 0 ↔ n < T.sizeof := by
    unfold Capacity
    rw [← hL0, ← h3]
    generalize (ctor T mem pBuffer n).bitmaskBytes / T.sizeof = q at h5 hdiv
    constructor
    · intro h0; omega
    · intro h0; omega
  refine ⟨hcap, ?_⟩
  intro hlt
  have hL : (ctor T mem pBuffer n).bitmaskLength = 0 := by rw [h3]; exact hL0.mpr hlt
  have hc := hcap.mpr hlt
  refine ⟨hL, by omega, hc, rfl, ?_⟩
  unfold IsFull
  unfold Capacity at hc
  rw [hc]
  rfl

/-- C14 (amended), at a buffer of 8 bytes for 16-byte elements. -/
theorem C14_small_buffer_witness :
    (8 : Nat) < 2 ^ 32 ∧
    ((ctor CTestClass (fun _ => 0) 1000 8).Capacity = 0 ↔ 8 < CTestClass.sizeof) ∧
    (8 < CTestClass.sizeof →
      (ctor CTestClass (fun _ => 0) 1000 8).bitmaskLength = 0 ∧
      (ctor CTestClass (fun _ => 0) 1000 8).bitmaskBytes = 0 ∧
      (ctor CTestClass (fun _ => 0) 1000 8).Capacity = 0 ∧
      (ctor CTestClass (fun _ => 0) 1000 8).Count = 0 ∧
      (ctor CTestClass (fun _ => 0) 1000 8).IsFull = true) :=
  ⟨by norm_num, C14_small_buffer CTestClass (fun _ => 0) 1000 8 (by norm_num)⟩

/-- C14 as stated fails: over a buffer of 8 bytes, smaller than one 16-byte element, the
constructor produces a container whose `Capacity()` is 0. -/
theorem C14_counterexample :
    tiny8.bufferSize = 8 ∧ tiny8.bufferSize < CTestClass.sizeof ∧ tiny8.Capacity = 0 ∧
    tiny8.Count = 0 ∧ tiny8.IsEmpty = true ∧ tiny8.IsFull = true := by
  refine ⟨by decide, by decide, by decide, by decide, by decide, by decide⟩

end CContainer

/-! ## C15, C16: slots outside the buffer -/

namespace CContainer

/-- C15 fails on the code.  Over 8 bytes with 1-byte elements (`Capacity() = 7`) the eighth
`Add` takes index 7, not below `Capacity()`, and constructs at offset 8, the end of the
buffer.  Over 9 bytes with 1-byte elements the ninth `Add` takes index `-1` and constructs
at `toc`, inside the bitmask.  Over 128 bytes with 16-byte elements (`Capacity() = 8`) the
eighth `Add`, made with `Count() = 7`, takes index 7 and constructs at offsets 113 to 128,
one byte past the buffer. -/
theorem C15_Add_out_of_bounds :
    (fresh8.Capacity = 7 ∧ (Add.search (AddN CByteClass 7 fresh8)).1 = 7 ∧
      fresh8.bufferSize < fresh8.bitmaskBytes + (7 + 1) * CByteClass.sizeof ∧
      (Add CByteClass (AddN CByteClass 7 fresh8)).2 = fresh8.toc + (fresh8.bufferSize : Int)) ∧
    ((∀ i, i < 8 * fresh9.bitmaskBytes → (AddN CByteClass 8 fresh9).bit i = true) ∧
      (Add.search (AddN CByteClass 8 fresh9)).1 = -1 ∧
      (Add CByteClass (AddN CByteClass 8 fresh9)).2 = fresh9.toc ∧
      (AddN CByteClass 8 fresh9).mem fresh9.toc = 255 ∧
      (Add CByteClass (AddN CByteClass 8 fresh9)).1.mem fresh9.toc = 1) ∧
    (fresh128.Capacity = 8 ∧ (AddN CTestClass 7 fresh128).Count = 7 ∧
      (Add.search (AddN CTestClass 7 fresh128)).1 = 7 ∧
      fresh128.bufferSize < fresh128.bitmaskBytes + (7 + 1) * CTestClass.sizeof ∧
      (Add CTestClass (AddN CTestClass 7 fresh128)).2 = fresh128.toc + 113 ∧
      fresh128.toc + (fresh128.bufferSize : Int) <
        (Add CTestClass (AddN CTestClass 7 fresh128)).2 + (CTestClass.sizeof : Int)) := by
  set_option maxRecDepth 8000 in
  refine ⟨⟨by decide, by decide, by decide, by decide⟩,
    ⟨by decide, by decide, by decide, by decide, by decide⟩,
    ⟨by decide, by decide, by decide, by decide, by decide, by decide⟩⟩

/-- C16 fails on the code.  Over 128 bytes with 16-byte elements the constructor computes
`bitmaskBytes = 1` and `Capacity() = 8`, and `1 + 8 * 16 = 129` exceeds the 128 bytes of
the buffer; the 127 bytes left after the bitmask hold 7 elements.  Over 2176 bytes it
computes `bitmaskBytes = 17` and `Capacity() = 135`, and `17 + 135 * 16 = 2177`. -/
theorem C16_capacity_overruns_buffer :
    (fresh128.bufferSize = 128 ∧ fresh128.bitmaskBytes = 1 ∧ fresh128.Capacity = 8 ∧
      fresh128.bufferSize < fresh128.bitmaskBytes + fresh128.Capacity * CTestClass.sizeof ∧
      (fresh128.bufferSize - fresh128.bitmaskBytes) / CTestClass.sizeof = 7) ∧
    ((ctor CTestClass (fun _ => 0) 1000 2176).bitmaskBytes = 17 ∧
      (ctor CTestClass (fun _ => 0) 1000 2176).Capacity = 135 ∧
      (ctor CTestClass (fun _ => 0) 1000 2176).bufferSize <
        (ctor CTestClass (fun _ => 0) 1000 2176).bitmaskBytes +
          (ctor CTestClass (fun _ => 0) 1000 2176).Capacity * CTestClass.sizeof) := by
  refine ⟨⟨by decide, by decide, by decide, by decide, by decide⟩,
    ⟨by decide, by decide, by decide⟩⟩

end CContainer
